import Mathlib

/-!
Verification of the confidential-assets cryptographic core of the
MoveIndustries ts-sdk.  The repository ships only the callers, tests and
constants of the confidential-assets package; the core itself (twisted
ElGamal over Ristretto, the discrete-log decoder, the orchestrator and the
wire codec) is absent, so those parts are modelled from the specification
as indicated on each definition.  The prime-order group generated by G0 is
identified with its scalar field: a Point p stands for the group element
p * G0, which is a faithful rendering of any cyclic group of prime order ℓ.
-/

set_option maxRecDepth 8000

namespace ConfidentialAssets

/-- Modelled from the spec: the error taxonomy of section 7 of the spec
(the confidential-assets error type is not in the repository snapshot).
Only the kinds exercised by the claims are carried. -/
inductive CAError where
  | invalidEncoding
  | unsupportedVersion
  | amountOutOfRange
  | chunkDecryptFailed (i : ℕ)
  | insufficientBalance
  | unnormalized
  deriving DecidableEq, Repr

instance instDecEqExcept {ε α : Type} [DecidableEq ε] [DecidableEq α] :
    DecidableEq (Except ε α)
  | .ok a, .ok b =>
    if h : a = b then .isTrue (by rw [h]) else .isFalse (fun hh => h (Except.ok.inj hh))
  | .error a, .error b =>
    if h : a = b then .isTrue (by rw [h]) else .isFalse (fun hh => h (Except.error.inj hh))
  | .ok _, .error _ => .isFalse Except.noConfusion
  | .error _, .ok _ => .isFalse Except.noConfusion

/-- Modelled from the spec: a group element of the prime-order group,
written as its discrete log to base G0 (Point p denotes p * G0).  The
generator G0 is the element 1 and the second generator H is a parameter. -/
abbrev Point (ℓ : ℕ) := ZMod ℓ

/-- Modelled from the spec: a twisted-ElGamal ciphertext, a pair of points
with C = m * G0 + r * H and D = r * P. -/
structure Ciphertext (ℓ : ℕ) where
  C : Point ℓ
  D : Point ℓ
  deriving DecidableEq

/-- Modelled from the spec: a decryption key is a secret scalar that must
be invertible (the encryption key is its inverse times H); in the
prime-order scalar field every nonzero scalar is invertible, rendered here
as a unit of ZMod ℓ. -/
abbrev DecryptionKey (ℓ : ℕ) := (ZMod ℓ)ˣ

/-- Modelled from the spec: the encryption key P = d⁻¹ * H of the
decryption key d (twisted variant). -/
def encryptionKey (ℓ : ℕ) (H : Point ℓ) (d : DecryptionKey ℓ) : Point ℓ :=
  ((d⁻¹ : (ZMod ℓ)ˣ) : ZMod ℓ) * H

/-- Modelled from the spec: deterministic encryption with caller-supplied
randomness r, returning (m * G0 + r * H, r * P). -/
def encryptDeterministic (ℓ : ℕ) (H : Point ℓ) (m : ℕ) (P : Point ℓ) (r : ZMod ℓ) :
    Ciphertext ℓ :=
  ⟨(m : ZMod ℓ) + r * H, r * P⟩

/-- Modelled from the spec: pointwise addition of ciphertexts. -/
def Ciphertext.add (ℓ : ℕ) (c₁ c₂ : Ciphertext ℓ) : Ciphertext ℓ :=
  ⟨c₁.C + c₂.C, c₁.D + c₂.D⟩

/-- Modelled from the spec: decryption recovers m * G0 = C - d * D. -/
def decryptPoint (ℓ : ℕ) (c : Ciphertext ℓ) (d : DecryptionKey ℓ) : Point ℓ :=
  c.C - (d : ZMod ℓ) * c.D

/-- First hit of f on the indices 0, 1, ..., n - 1, scanned in increasing
order: the iteration skeleton shared by the baby-step table lookup and the
giant-step loop. -/
def firstHit {α : Type} (f : ℕ → Option α) : ℕ → Option α
  | 0 => none
  | n + 1 =>
    match firstHit f n with
    | some a => some a
    | none => f n

/-- Modelled from the spec: the baby-step table maps i * G0 to i for
i in [0, 2 ^ half); looking up a point p scans for the first such i. -/
def babyTableLookup (ℓ half : ℕ) (p : Point ℓ) : Option ℕ :=
  firstHit (fun i => if (i : ZMod ℓ) = p then some i else none) (2 ^ half)

/-- Modelled from the spec: baby-step giant-step discrete-log search.  For
P = m * G0, iterate j in [0, 2 ^ (maxBits / 2)) evaluating
P - j * 2 ^ (maxBits / 2) * G0, look the result up in the baby-step table,
and return j * 2 ^ (maxBits / 2) + i on a hit. -/
def dlogBSGS (ℓ maxBits : ℕ) (p : Point ℓ) : Option ℕ :=
  firstHit
    (fun j =>
      (babyTableLookup ℓ (maxBits / 2)
          (p - ((j * 2 ^ (maxBits / 2) : ℕ) : ZMod ℓ))).map
        (fun i => j * 2 ^ (maxBits / 2) + i))
    (2 ^ (maxBits / 2))

/-- Modelled from the spec: decrypt then solve the discrete log within
[0, 2 ^ maxBits), failing with AmountOutOfRange when no value matches. -/
def decryptValue (ℓ : ℕ) (c : Ciphertext ℓ) (d : DecryptionKey ℓ) (maxBits : ℕ) :
    Except CAError ℕ :=
  match dlogBSGS ℓ maxBits (decryptPoint ℓ c d) with
  | some m => .ok m
  | none => .error .amountOutOfRange

/-! ## Chunked ciphertexts -/

/-- Modelled from the spec: a large amount is represented as 8 chunks of 16
bits each, little-endian, each chunk encrypted independently; chunk 0 holds
the least-significant 16 bits. -/
structure ChunkedCiphertext (ℓ : ℕ) where
  chunks : List (Ciphertext ℓ)
  chunks_len : chunks.length = 8

/-- Modelled from the spec: run the 16-bit decryption on each chunk in
order, the second argument being the index of the first chunk of the list;
the first chunk whose DL search fails aborts the whole decryption with
ChunkDecryptFailed of its index. -/
def decryptChunksFrom (ℓ : ℕ) (d : DecryptionKey ℓ) :
    List (Ciphertext ℓ) → ℕ → Except CAError (List ℕ)
  | [], _ => .ok []
  | c :: rest, i =>
    match decryptValue ℓ c d 16 with
    | .ok m =>
      match decryptChunksFrom ℓ d rest (i + 1) with
      | .ok ms => .ok (m :: ms)
      | .error e => .error e
    | .error _ => .error (.chunkDecryptFailed i)

/-- Modelled from the spec: recomposition of the amount from its 16-bit
chunks, chunk 0 least significant. -/
def recompose : List ℕ → ℕ
  | [] => 0
  | m :: ms => m + 2 ^ 16 * recompose ms

/-- Modelled from the spec: ChunkedCiphertext.decrypt runs the 16-bit DL
search on each of the 8 chunks and recomposes the amount on success. -/
def ChunkedCiphertext.decrypt (ℓ : ℕ) (cc : ChunkedCiphertext ℓ)
    (d : DecryptionKey ℓ) : Except CAError ℕ :=
  match decryptChunksFrom ℓ d cc.chunks 0 with
  | .ok ms => .ok (recompose ms)
  | .error e => .error e

/-- A concrete chunked ciphertext of 8 zero chunks, used to instantiate the
chunked-decryption theorem. -/
def sampleChunked : ChunkedCiphertext 5 := ⟨List.replicate 8 ⟨0, 0⟩, rfl⟩

/-! ## Operation orchestrator -/

/-- Modelled from the spec: the client mirror of the on-chain BalanceRecord
for one (account, token) pair as the orchestrator sees it after fetching
and decrypting, with the pending and available chunked ciphertexts already
decrypted to their amounts. -/
structure OrchState where
  pendingAmount : ℕ
  availableAmount : ℕ
  isNormalized : Bool
  isFrozen : Bool
  deriving DecidableEq, Repr

/-- Modelled from the spec: the statement a withdrawal proof binds (the
proof object itself is opaque to the orchestrator pipeline). -/
structure WithdrawalProofModel where
  token : ℕ
  amount : ℕ
  newAmount : ℕ
  deriving DecidableEq, Repr

/-- Modelled from the spec: the statement a transfer proof binds. -/
structure TransferProofModel where
  token : ℕ
  recipient : ℕ
  amount : ℕ
  newSenderAmount : ℕ
  deriving DecidableEq, Repr

/-- Modelled from the spec: the statement a key-rotation proof binds. -/
structure RotationProofModel where
  token : ℕ
  newKey : ℕ
  amount : ℕ
  deriving DecidableEq, Repr

/-- Modelled from the spec: the chain-facing steps an orchestrator pipeline
emits, in order; token, keys and addresses are abstracted to naturals. -/
inductive Action where
  | fetchState (token : ℕ)
  | submitRollover (token : ℕ)
  | submitNormalize (token : ℕ)
  | submitWithdraw (token amount newAvailable : ℕ) (proof : WithdrawalProofModel)
  | submitTransfer (token recipient amount newSenderAvailable : ℕ)
      (proof : TransferProofModel)
  | submitRotate (token newKey newAvailable : ℕ) (proof : RotationProofModel)
  deriving DecidableEq, Repr

/-- Modelled from the spec: construction of the withdrawal proof over its
statement. -/
def buildWithdrawalProof (token amount newAmount : ℕ) : WithdrawalProofModel :=
  ⟨token, amount, newAmount⟩

/-- Modelled from the spec: construction of the transfer proof over its
statement. -/
def buildTransferProof (token recipient amount newSenderAmount : ℕ) :
    TransferProofModel :=
  ⟨token, recipient, amount, newSenderAmount⟩

/-- Modelled from the spec: construction of the rotation proof over its
statement. -/
def buildRotationProof (token newKey amount : ℕ) : RotationProofModel :=
  ⟨token, newKey, amount⟩

/-- The total decrypted balance: pending plus available, which is what the
available balance becomes once the pipeline has rolled the pending
ciphertext over. -/
def totalBalance (st : OrchState) : ℕ := st.pendingAmount + st.availableAmount

/-- Modelled from the spec: withdraw(token, amount) fetches the current
state, rolls over when the pending amount is nonzero, normalizes when the
balance is not normalized, then builds a WithdrawalProof and invokes the
on-chain withdraw entry function with (token, amount, C_new, proof); an
amount exceeding the decrypted balance is refused locally with
InsufficientBalance before anything is submitted. -/
def withdraw (token amount : ℕ) (st : OrchState) : Except CAError (List Action) :=
  if totalBalance st < amount then .error .insufficientBalance
  else
    .ok ([Action.fetchState token]
      ++ (if st.pendingAmount ≠ 0 then [Action.submitRollover token] else [])
      ++ (if st.isNormalized then [] else [Action.submitNormalize token])
      ++ [Action.submitWithdraw token amount (totalBalance st - amount)
            (buildWithdrawalProof token amount (totalBalance st - amount))])

/-- Modelled from the spec: transfer(token, recipient, amount) with the
same fetch, rollover, normalize and local balance check discipline as
withdraw, ending in the confidential-transfer entry function call. -/
def transfer (token recipient amount : ℕ) (st : OrchState) :
    Except CAError (List Action) :=
  if totalBalance st < amount then .error .insufficientBalance
  else
    .ok ([Action.fetchState token]
      ++ (if st.pendingAmount ≠ 0 then [Action.submitRollover token] else [])
      ++ (if st.isNormalized then [] else [Action.submitNormalize token])
      ++ [Action.submitTransfer token recipient amount (totalBalance st - amount)
            (buildTransferProof token recipient amount (totalBalance st - amount))])

/-- Modelled from the spec: rotate(token, newDecryptionKey) requires the
pending ciphertext to be empty and the balance normalized, refusing
locally with Unnormalized otherwise; only then is a RotationProof built
and the rotate entry function invoked. -/
def rotateEncryptionKey (token newKey : ℕ) (st : OrchState) :
    Except CAError (List Action) :=
  if st.pendingAmount = 0 ∧ st.isNormalized then
    .ok [Action.fetchState token,
      Action.submitRotate token newKey st.availableAmount
        (buildRotationProof token newKey st.availableAmount)]
  else .error .unnormalized

/-! ## Proof-size constants (from the source constants module) -/

/-- From the source: size in bytes of one proof chunk. -/
def PROOF_CHUNK_SIZE : ℕ := 32

/-- From the source: serialized size of the withdrawal Sigma proof. -/
def SIGMA_PROOF_WITHDRAW_SIZE : ℕ := PROOF_CHUNK_SIZE * 21

/-- From the source: serialized size of the transfer Sigma proof. -/
def SIGMA_PROOF_TRANSFER_SIZE : ℕ := PROOF_CHUNK_SIZE * 33

/-- From the source: serialized size of the key-rotation Sigma proof. -/
def SIGMA_PROOF_KEY_ROTATION_SIZE : ℕ := PROOF_CHUNK_SIZE * 23

/-- From the source: serialized size of the normalization Sigma proof. -/
def SIGMA_PROOF_NORMALIZATION_SIZE : ℕ := PROOF_CHUNK_SIZE * 21

/-! ## Wire codec -/

/-- Little-endian byte encoding of n on exactly k bytes. -/
def encodeLE : ℕ → ℕ → List ℕ
  | 0, _ => []
  | k + 1, n => n % 256 :: encodeLE k (n / 256)

/-- Value of a little-endian byte string. -/
def decodeLEval : List ℕ → ℕ
  | [] => 0
  | b :: bs => b + 256 * decodeLEval bs

/-- Modelled from the spec: a point is serialized as 32 canonical bytes;
the decoder rejects a wrong length, an out-of-range byte and a
non-canonical value (one not below the group order). -/
def encodePoint (ℓ : ℕ) (p : Point ℓ) : List ℕ := encodeLE 32 (ZMod.val p)

/-- Modelled from the spec: decoding of a 32-byte canonical point. -/
def decodePoint (ℓ : ℕ) (bs : List ℕ) : Option (Point ℓ) :=
  if bs.length = 32 ∧ (∀ b ∈ bs, b < 256) ∧ decodeLEval bs < ℓ
  then some ((decodeLEval bs : ℕ) : ZMod ℓ)
  else none

/-- Modelled from the spec: a ciphertext is C followed by D, 64 bytes. -/
def encodeCiphertext (ℓ : ℕ) (c : Ciphertext ℓ) : List ℕ :=
  encodePoint ℓ c.C ++ encodePoint ℓ c.D

/-- Modelled from the spec: decoding of a 64-byte ciphertext. -/
def decodeCiphertext (ℓ : ℕ) (bs : List ℕ) : Option (Ciphertext ℓ) :=
  if bs.length = 64 then
    match decodePoint ℓ (bs.take 32), decodePoint ℓ (bs.drop 32) with
    | some x, some y => some ⟨x, y⟩
    | _, _ => none
  else none

/-- Modelled from the spec: the proof version carried in the 2-byte
version prefix (the concrete value is not fixed by the spec; decoders
reject any other value). -/
def proofVersion : ℕ := 1

/-- Modelled from the spec: the serialized WithdrawalProof splits into a
fixed-width Sigma block and 8 length-prefixed range proofs. -/
structure WithdrawalProofWire where
  sigma : List ℕ
  rangeProofs : List (List ℕ)
  deriving DecidableEq, Repr

/-- Modelled from the spec: each range proof is serialized with a 4-byte
little-endian length prefix, consecutively. -/
def encodeRangeProofs : List (List ℕ) → List ℕ
  | [] => []
  | rp :: rest => encodeLE 4 rp.length ++ rp ++ encodeRangeProofs rest

/-- Modelled from the spec: WithdrawalProof wire layout, the 2-byte
version prefix, then the fixed-width Sigma block, then the 8
length-prefixed range proofs. -/
def encodeWithdrawalProof (pf : WithdrawalProofWire) : List ℕ :=
  encodeLE 2 proofVersion ++ pf.sigma ++ encodeRangeProofs pf.rangeProofs

/-- Split off exactly n leading bytes, failing when too few remain. -/
def takeExact (n : ℕ) (bs : List ℕ) : Option (List ℕ × List ℕ) :=
  if n ≤ bs.length then some (bs.take n, bs.drop n) else none

/-- Modelled from the spec: sequential decoding of k length-prefixed range
proofs, returning them and the remaining bytes. -/
def decodeRangeProofs : ℕ → List ℕ → Option (List (List ℕ) × List ℕ)
  | 0, bs => some ([], bs)
  | k + 1, bs =>
    match takeExact 4 bs with
    | some (lenB, rest) =>
      if ∀ b ∈ lenB, b < 256 then
        match takeExact (decodeLEval lenB) rest with
        | some (rp, rest2) =>
          match decodeRangeProofs k rest2 with
          | some (rps, rest3) => some (rp :: rps, rest3)
          | none => none
        | none => none
      else none
    | none => none

/-- Modelled from the spec: decoding of a serialized WithdrawalProof,
rejecting a wrong version prefix and trailing bytes. -/
def decodeWithdrawalProof (bs : List ℕ) : Option WithdrawalProofWire :=
  match takeExact 2 bs with
  | some (vB, rest) =>
    if vB = encodeLE 2 proofVersion then
      match takeExact SIGMA_PROOF_WITHDRAW_SIZE rest with
      | some (sg, rest2) =>
        match decodeRangeProofs 8 rest2 with
        | some (rps, rest3) => if rest3 = [] then some ⟨sg, rps⟩ else none
        | none => none
      | none => none
    else none
  | none => none

/-- Modelled from the spec: the common wire layout of the fixed-sigma
proof kinds (withdrawal, normalization, rotation): the 2-byte version
prefix, a fixed-width Sigma block, then length-prefixed range proofs. -/
def encodeFixedProof (sigma : List ℕ) (rps : List (List ℕ)) : List ℕ :=
  encodeLE 2 proofVersion ++ sigma ++ encodeRangeProofs rps

/-- Modelled from the spec: decoding of a fixed-sigma proof with the given
Sigma block width and range-proof count, rejecting a wrong version prefix
and trailing bytes. -/
def decodeFixedProof (sigmaSize nRanges : ℕ) (bs : List ℕ) :
    Option (List ℕ × List (List ℕ)) :=
  match takeExact 2 bs with
  | some (vB, rest) =>
    if vB = encodeLE 2 proofVersion then
      match takeExact sigmaSize rest with
      | some (sg, rest2) =>
        match decodeRangeProofs nRanges rest2 with
        | some (rps, rest3) => if rest3 = [] then some (sg, rps) else none
        | none => none
      | none => none
    else none
  | none => none

/-- Modelled from the spec: the serialized NormalizationProof is a Sigma
block of the normalization width plus 8 length-prefixed range proofs. -/
structure NormalizationProofWire where
  sigma : List ℕ
  rangeProofs : List (List ℕ)
  deriving DecidableEq, Repr

/-- Modelled from the spec: NormalizationProof wire layout. -/
def encodeNormalizationProof (pf : NormalizationProofWire) : List ℕ :=
  encodeFixedProof pf.sigma pf.rangeProofs

/-- Modelled from the spec: decoding of a serialized NormalizationProof. -/
def decodeNormalizationProof (bs : List ℕ) : Option NormalizationProofWire :=
  match decodeFixedProof SIGMA_PROOF_NORMALIZATION_SIZE 8 bs with
  | some (sg, rps) => some ⟨sg, rps⟩
  | none => none

/-- Modelled from the spec: the serialized RotationProof is a Sigma block
of the key-rotation width plus 8 length-prefixed range proofs. -/
structure RotationProofWire where
  sigma : List ℕ
  rangeProofs : List (List ℕ)
  deriving DecidableEq, Repr

/-- Modelled from the spec: RotationProof wire layout. -/
def encodeRotationProof (pf : RotationProofWire) : List ℕ :=
  encodeFixedProof pf.sigma pf.rangeProofs

/-- Modelled from the spec: decoding of a serialized RotationProof. -/
def decodeRotationProof (bs : List ℕ) : Option RotationProofWire :=
  match decodeFixedProof SIGMA_PROOF_KEY_ROTATION_SIZE 8 bs with
  | some (sg, rps) => some ⟨sg, rps⟩
  | none => none

/-- Modelled from the spec: consecutive 32-byte point encodings. -/
def encodePointList (ℓ : ℕ) : List (Point ℓ) → List ℕ
  | [] => []
  | p :: rest => encodePoint ℓ p ++ encodePointList ℓ rest

/-- Modelled from the spec: decoding of n consecutive 32-byte points,
returning them and the remaining bytes. -/
def decodePointList (ℓ : ℕ) : ℕ → List ℕ → Option (List (Point ℓ) × List ℕ)
  | 0, bs => some ([], bs)
  | n + 1, bs =>
    match takeExact 32 bs with
    | some (pb, rest) =>
      match decodePoint ℓ pb with
      | some p =>
        match decodePointList ℓ n rest with
        | some (ps, rest2) => some (p :: ps, rest2)
        | none => none
      | none => none
    | none => none

/-- Modelled from the spec: consecutive 64-byte ciphertext encodings. -/
def encodeCiphertextList (ℓ : ℕ) : List (Ciphertext ℓ) → List ℕ
  | [] => []
  | c :: rest => encodeCiphertext ℓ c ++ encodeCiphertextList ℓ rest

/-- Modelled from the spec: decoding of n consecutive 64-byte ciphertexts,
returning them and the remaining bytes. -/
def decodeCiphertextList (ℓ : ℕ) : ℕ → List ℕ → Option (List (Ciphertext ℓ) × List ℕ)
  | 0, bs => some ([], bs)
  | n + 1, bs =>
    match takeExact 64 bs with
    | some (cb, rest) =>
      match decodeCiphertext ℓ cb with
      | some c =>
        match decodeCiphertextList ℓ n rest with
        | some (cs, rest2) => some (c :: cs, rest2)
        | none => none
      | none => none
    | none => none

/-- Modelled from the spec: a ChunkedCiphertext is its 8 ciphertexts in
order, 512 bytes. -/
def encodeChunkedCiphertext (ℓ : ℕ) (cc : ChunkedCiphertext ℓ) : List ℕ :=
  encodeCiphertextList ℓ cc.chunks

/-- Modelled from the spec: decoding of a standalone 512-byte
ChunkedCiphertext, rejecting trailing bytes. -/
def decodeChunkedCiphertext (ℓ : ℕ) (bs : List ℕ) : Option (ChunkedCiphertext ℓ) :=
  match decodeCiphertextList ℓ 8 bs with
  | some (cs, rest) =>
    if rest = [] then
      if h : cs.length = 8 then some ⟨cs, h⟩ else none
    else none
  | none => none

/-- Modelled from the spec: consecutive 512-byte chunked ciphertexts. -/
def encodeChunkedCiphertextList (ℓ : ℕ) : List (ChunkedCiphertext ℓ) → List ℕ
  | [] => []
  | cc :: rest => encodeChunkedCiphertext ℓ cc ++ encodeChunkedCiphertextList ℓ rest

/-- Modelled from the spec: decoding of k consecutive 512-byte chunked
ciphertexts, returning them and the remaining bytes. -/
def decodeChunkedCiphertextList (ℓ : ℕ) :
    ℕ → List ℕ → Option (List (ChunkedCiphertext ℓ) × List ℕ)
  | 0, bs => some ([], bs)
  | k + 1, bs =>
    match decodeCiphertextList ℓ 8 bs with
    | some (cs, rest) =>
      if h : cs.length = 8 then
        match decodeChunkedCiphertextList ℓ k rest with
        | some (ccs, rest2) => some (⟨cs, h⟩ :: ccs, rest2)
        | none => none
      else none
    | none => none

/-- Modelled from the spec: the serialized TransferProof carries a 1-byte
auditor count, the auditor public keys and auditor chunked ciphertexts
inline, the fixed-width Sigma block, then the 16 + k range proofs. -/
structure TransferProofWire (ℓ : ℕ) where
  auditorKeys : List (Point ℓ)
  auditorCiphertexts : List (ChunkedCiphertext ℓ)
  sigma : List ℕ
  rangeProofs : List (List ℕ)

/-- Modelled from the spec: TransferProof wire layout, the 2-byte version
prefix, the 1-byte auditor count, the auditor public keys, the auditor
chunked ciphertexts, the Sigma block, then the range proofs. -/
def encodeTransferProof (ℓ : ℕ) (pf : TransferProofWire ℓ) : List ℕ :=
  encodeLE 2 proofVersion ++ encodeLE 1 pf.auditorKeys.length
    ++ encodePointList ℓ pf.auditorKeys
    ++ encodeChunkedCiphertextList ℓ pf.auditorCiphertexts
    ++ pf.sigma ++ encodeRangeProofs pf.rangeProofs

/-- Modelled from the spec: decoding of a serialized TransferProof,
rejecting a wrong version prefix, an out-of-range count byte and trailing
bytes; the count fixes the number of auditor keys, auditor ciphertexts and
range proofs. -/
def decodeTransferProof (ℓ : ℕ) (bs : List ℕ) : Option (TransferProofWire ℓ) :=
  match takeExact 2 bs with
  | some (vB, r1) =>
    if vB = encodeLE 2 proofVersion then
      match takeExact 1 r1 with
      | some (kB, r2) =>
        if ∀ b ∈ kB, b < 256 then
          match decodePointList ℓ (decodeLEval kB) r2 with
          | some (keys, r3) =>
            match decodeChunkedCiphertextList ℓ (decodeLEval kB) r3 with
            | some (ccs, r4) =>
              match takeExact SIGMA_PROOF_TRANSFER_SIZE r4 with
              | some (sg, r5) =>
                match decodeRangeProofs (16 + decodeLEval kB) r5 with
                | some (rps, r6) =>
                  if r6 = [] then some ⟨keys, ccs, sg, rps⟩ else none
                | none => none
              | none => none
            | none => none
          | none => none
        else none
      | none => none
    else none
  | none => none

/-! ## Key derivation -/

/-- Modelled from the spec: the fixed domain string whose external
signature is hashed to derive a decryption key deterministically (the
TwistedEd25519PrivateKey class itself is absent from the repository
snapshot; the test helpers sign this message). -/
def decryptionKeyDerivationMessage : String :=
  "CONFIDENTIAL_ASSET__TWISTED_ED25519_PRIVATE_KEY_CLAIM"

/-- Modelled from the spec: deterministic derivation of a decryption key
by hashing the signature bytes to a scalar under the CA-DK-v1 label; the
hash-to-scalar primitive is a parameter because it is an external
collaborator. -/
def fromSignature (ℓ : ℕ) (hashToScalar : String → List ℕ → ZMod ℓ)
    (sigBytes : List ℕ) : ZMod ℓ :=
  hashToScalar "CA-DK-v1" sigBytes

/-! ## Theorems -/

/-! ### Generic facts about the bounded linear scan -/

theorem firstHit_succ {α : Type} (f : ℕ → Option α) (n : ℕ) :
    firstHit f (n + 1) = match firstHit f n with | some a => some a | none => f n := rfl

theorem firstHit_succ_some {α : Type} {f : ℕ → Option α} {n : ℕ} {a : α}
    (h : firstHit f n = some a) : firstHit f (n + 1) = some a := by
  rw [firstHit_succ, h]

theorem firstHit_succ_none {α : Type} {f : ℕ → Option α} {n : ℕ}
    (h : firstHit f n = none) : firstHit f (n + 1) = f n := by
  rw [firstHit_succ, h]

theorem firstHit_eq_none_iff {α : Type} (f : ℕ → Option α) (n : ℕ) :
    firstHit f n = none ↔ ∀ i < n, f i = none := by
  induction n with
  | zero => simp [firstHit]
  | succ n ih =>
    constructor
    · intro h i hi
      cases hfn : firstHit f n with
      | some a => rw [firstHit_succ_some hfn] at h; exact absurd h (by simp)
      | none =>
        rw [firstHit_succ_none hfn] at h
        rcases Nat.lt_succ_iff_lt_or_eq.mp hi with h1 | h1
        · exact ih.mp hfn i h1
        · rw [h1]; exact h
    · intro h
      have hfn : firstHit f n = none := ih.mpr (fun i hi => h i (Nat.lt_succ_of_lt hi))
      rw [firstHit_succ_none hfn]
      exact h n (Nat.lt_succ_self n)

theorem firstHit_eq_some_of {α : Type} (f : ℕ → Option α) (n j : ℕ) (a : α)
    (hj : j < n) (hfj : f j = some a) (hbefore : ∀ i < j, f i = none) :
    firstHit f n = some a := by
  induction n with
  | zero => omega
  | succ n ih =>
    rcases Nat.lt_succ_iff_lt_or_eq.mp hj with h1 | h1
    · exact firstHit_succ_some (ih h1)
    · subst h1
      rw [firstHit_succ_none ((firstHit_eq_none_iff f j).mpr hbefore)]
      exact hfj

theorem firstHit_eq_some_elim {α : Type} (f : ℕ → Option α) (n : ℕ) (a : α)
    (h : firstHit f n = some a) : ∃ j < n, f j = some a := by
  induction n with
  | zero => simp [firstHit] at h
  | succ n ih =>
    cases hfn : firstHit f n with
    | some b =>
      rw [firstHit_succ_some hfn] at h
      obtain rfl : b = a := Option.some.inj h
      obtain ⟨j, hj, hfj⟩ := ih hfn
      exact ⟨j, Nat.lt_succ_of_lt hj, hfj⟩
    | none =>
      rw [firstHit_succ_none hfn] at h
      exact ⟨n, Nat.lt_succ_self n, h⟩

/-! ### Correctness of the baby-step table and the giant-step loop -/

theorem babyTableLookup_cast (ℓ half x : ℕ) (hx : x < 2 ^ half) (hsub : 2 ^ half ≤ ℓ) :
    babyTableLookup ℓ half ((x : ℕ) : ZMod ℓ) = some x := by
  unfold babyTableLookup
  apply firstHit_eq_some_of _ _ x _ hx (by rw [if_pos rfl])
  intro i hi
  rw [if_neg]
  intro hcast
  have hival : ((i : ℕ) : ZMod ℓ).val = i := ZMod.val_cast_of_lt (by omega)
  have hxval : ((x : ℕ) : ZMod ℓ).val = x := ZMod.val_cast_of_lt (by omega)
  have : i = x := by rw [← hival, ← hxval, hcast]
  omega

theorem babyTableLookup_none (ℓ half : ℕ) (p : ZMod ℓ)
    (hp : ∀ i < 2 ^ half, ((i : ℕ) : ZMod ℓ) ≠ p) :
    babyTableLookup ℓ half p = none := by
  unfold babyTableLookup
  rw [firstHit_eq_none_iff]
  intro i hi
  rw [if_neg (hp i hi)]

theorem babyTableLookup_elim (ℓ half : ℕ) (p : ZMod ℓ) (i : ℕ)
    (h : babyTableLookup ℓ half p = some i) :
    i < 2 ^ half ∧ ((i : ℕ) : ZMod ℓ) = p := by
  obtain ⟨j, hj, hfj⟩ := firstHit_eq_some_elim _ _ _ h
  by_cases hc : ((j : ℕ) : ZMod ℓ) = p
  · rw [if_pos hc] at hfj
    obtain rfl : j = i := Option.some.inj hfj
    exact ⟨hj, hc⟩
  · rw [if_neg hc] at hfj
    exact absurd hfj (by simp)

theorem sub_natCast_of_le (ℓ : ℕ) [NeZero ℓ] (p : ZMod ℓ) (k : ℕ)
    (h : k ≤ ZMod.val p) : p - (k : ZMod ℓ) = ((ZMod.val p - k : ℕ) : ZMod ℓ) := by
  have hp : ((ZMod.val p : ℕ) : ZMod ℓ) = p := ZMod.natCast_rightInverse p
  calc p - (k : ZMod ℓ) = ((ZMod.val p : ℕ) : ZMod ℓ) - (k : ZMod ℓ) := by rw [hp]
    _ = ((ZMod.val p - k : ℕ) : ZMod ℓ) := by rw [Nat.cast_sub h]

/-- The baby-step giant-step search over an even bit width finds exactly
the discrete logs below 2 ^ maxBits: it returns the canonical
representative of p when that representative is in range and fails
otherwise.  Requires 2 ^ maxBits ≤ ℓ so that the search window has no
collisions. -/
theorem dlogBSGS_spec (ℓ maxBits : ℕ) (hrange : 2 ^ maxBits ≤ ℓ)
    (heven : maxBits % 2 = 0) (p : ZMod ℓ) :
    dlogBSGS ℓ maxBits p =
      if (ZMod.val p) < 2 ^ maxBits then some (ZMod.val p) else none := by
  have hpow : (0 : ℕ) < 2 ^ (maxBits / 2) := pow_pos (by norm_num) _
  have h2 : maxBits = maxBits / 2 + maxBits / 2 := by omega
  have hhm : 2 ^ (maxBits / 2) * 2 ^ (maxBits / 2) = 2 ^ maxBits := by
    rw [← pow_add, ← h2]
  have hsub : 2 ^ (maxBits / 2) ≤ ℓ := by
    calc 2 ^ (maxBits / 2) ≤ 2 ^ maxBits := Nat.pow_le_pow_right (by norm_num) (by omega)
    _ ≤ ℓ := hrange
  have hℓpos : 0 < ℓ := lt_of_lt_of_le (pow_pos (by norm_num) maxBits) hrange
  haveI : NeZero ℓ := ⟨by omega⟩
  have hvlt : ZMod.val p < ℓ := ZMod.val_lt p
  have hpcast : ((ZMod.val p : ℕ) : ZMod ℓ) = p := ZMod.natCast_rightInverse p
  unfold dlogBSGS
  by_cases hv : ZMod.val p < 2 ^ maxBits
  · rw [if_pos hv]
    set half := maxBits / 2 with hhalf
    set q := ZMod.val p / 2 ^ half with hq
    set rem := ZMod.val p % 2 ^ half with hrem
    have hqlt : q < 2 ^ half := by
      rw [hq]
      exact Nat.div_lt_of_lt_mul (by rw [hhm]; exact hv)
    have hremlt : rem < 2 ^ half := Nat.mod_lt _ hpow
    have hqle : q * 2 ^ half ≤ ZMod.val p := Nat.div_mul_le_self _ _
    have hdecomp : q * 2 ^ half + rem = ZMod.val p := by
      rw [mul_comm]; exact Nat.div_add_mod _ _
    apply firstHit_eq_some_of _ _ q _ hqlt
    · have hpt : p - ((q * 2 ^ half : ℕ) : ZMod ℓ) = ((rem : ℕ) : ZMod ℓ) := by
        rw [sub_natCast_of_le ℓ p _ hqle]
        congr 1
        omega
      rw [hpt, babyTableLookup_cast ℓ half rem hremlt hsub]
      show some (q * 2 ^ half + rem) = some (ZMod.val p)
      congr 1
    · intro i hi
      have hile : (i + 1) * 2 ^ half ≤ q * 2 ^ half :=
        Nat.mul_le_mul_right _ (by omega)
      have hiw : i * 2 ^ half + 2 ^ half ≤ ZMod.val p := by
        calc i * 2 ^ half + 2 ^ half = (i + 1) * 2 ^ half := by ring
        _ ≤ q * 2 ^ half := hile
        _ ≤ ZMod.val p := hqle
      have hpt : p - ((i * 2 ^ half : ℕ) : ZMod ℓ) =
          ((ZMod.val p - i * 2 ^ half : ℕ) : ZMod ℓ) :=
        sub_natCast_of_le ℓ p _ (by omega)
      rw [hpt, babyTableLookup_none]
      · simp
      · intro t ht hcast
        have htval : ((t : ℕ) : ZMod ℓ).val = t := ZMod.val_cast_of_lt (by omega)
        have hwval : ((ZMod.val p - i * 2 ^ half : ℕ) : ZMod ℓ).val =
            ZMod.val p - i * 2 ^ half := ZMod.val_cast_of_lt (by omega)
        have : t = ZMod.val p - i * 2 ^ half := by rw [← htval, ← hwval, hcast]
        omega
  · rw [if_neg hv]
    rw [firstHit_eq_none_iff]
    intro j hj
    set half := maxBits / 2 with hhalf
    cases hbt : babyTableLookup ℓ half (p - ((j * 2 ^ half : ℕ) : ZMod ℓ)) with
    | none => simp
    | some i =>
      obtain ⟨hilt, hieq⟩ := babyTableLookup_elim _ _ _ _ hbt
      have hbound : i + j * 2 ^ half < 2 ^ maxBits := by
        have h1 : i + j * 2 ^ half < (j + 1) * 2 ^ half := by
          have : (j + 1) * 2 ^ half = j * 2 ^ half + 2 ^ half := by ring
          omega
        have h2' : (j + 1) * 2 ^ half ≤ 2 ^ half * 2 ^ half :=
          Nat.mul_le_mul_right _ (by omega)
        omega
      have hcast : ((i + j * 2 ^ half : ℕ) : ZMod ℓ) = p := by
        rw [Nat.cast_add, hieq]
        ring
      have hval : ZMod.val p = i + j * 2 ^ half := by
        rw [← hcast, ZMod.val_cast_of_lt (by omega)]
      omega

/-- Behaviour of decryptValue for an even bit width within the collision-free
window: it returns the canonical discrete log of the decrypted point when
that value is in range and AmountOutOfRange otherwise. -/
theorem decryptValue_spec (ℓ maxBits : ℕ) (c : Ciphertext ℓ) (d : DecryptionKey ℓ)
    (hrange : 2 ^ maxBits ≤ ℓ) (heven : maxBits % 2 = 0) :
    decryptValue ℓ c d maxBits =
      if (decryptPoint ℓ c d).val < 2 ^ maxBits
      then .ok ((decryptPoint ℓ c d).val)
      else .error .amountOutOfRange := by
  unfold decryptValue
  rw [dlogBSGS_spec ℓ maxBits hrange heven]
  by_cases hv : (decryptPoint ℓ c d).val < 2 ^ maxBits
  · rw [if_pos hv, if_pos hv]
  · rw [if_neg hv, if_neg hv]

/-- Decrypting a deterministic encryption under the matching key pair
recovers the plaintext point m * G0. -/
theorem decryptPoint_encryptDeterministic (ℓ : ℕ) (H : Point ℓ) (m : ℕ)
    (d : DecryptionKey ℓ) (r : ZMod ℓ) :
    decryptPoint ℓ (encryptDeterministic ℓ H m (encryptionKey ℓ H d) r) d =
      (m : ZMod ℓ) := by
  unfold decryptPoint encryptDeterministic encryptionKey
  have hdd : (d : ZMod ℓ) * ((d⁻¹ : (ZMod ℓ)ˣ) : ZMod ℓ) = 1 := Units.mul_inv d
  have hkey : (d : ZMod ℓ) * (r * (((d⁻¹ : (ZMod ℓ)ˣ) : ZMod ℓ) * H)) = r * H := by
    calc (d : ZMod ℓ) * (r * (((d⁻¹ : (ZMod ℓ)ˣ) : ZMod ℓ) * H))
        = ((d : ZMod ℓ) * ((d⁻¹ : (ZMod ℓ)ˣ) : ZMod ℓ)) * (r * H) := by ring
      _ = r * H := by rw [hdd, one_mul]
  simp only
  rw [hkey]
  ring

theorem decryptPoint_add (ℓ : ℕ) (c₁ c₂ : Ciphertext ℓ) (d : DecryptionKey ℓ) :
    decryptPoint ℓ (Ciphertext.add ℓ c₁ c₂) d =
      decryptPoint ℓ c₁ d + decryptPoint ℓ c₂ d := by
  unfold decryptPoint Ciphertext.add
  simp only
  ring

theorem decryptValue_ok_val (ℓ maxBits m : ℕ) (c : Ciphertext ℓ) (d : DecryptionKey ℓ)
    (hrange : 2 ^ maxBits ≤ ℓ) (heven : maxBits % 2 = 0)
    (h : decryptValue ℓ c d maxBits = .ok m) :
    (decryptPoint ℓ c d).val = m ∧ m < 2 ^ maxBits := by
  rw [decryptValue_spec ℓ maxBits c d hrange heven] at h
  by_cases hv : (decryptPoint ℓ c d).val < 2 ^ maxBits
  · rw [if_pos hv] at h
    obtain rfl : (decryptPoint ℓ c d).val = m := Except.ok.inj h
    exact ⟨rfl, hv⟩
  · rw [if_neg hv] at h
    exact absurd h (by simp)

/-! ## Claim C1 -/

/-- C1: encryption round-trip.  For every amount m in [0, 2 ^ 64), every
keypair (d, P) with P the encryption key of d, and every randomness scalar
r, decrypting the deterministic encryption of m under P with randomness r
using d returns exactly m. -/
theorem c1_encryption_roundtrip (ℓ m : ℕ) (H r : ZMod ℓ) (d : DecryptionKey ℓ)
    (hrange : 2 ^ 64 ≤ ℓ) (hm : m < 2 ^ 64) :
    decryptValue ℓ (encryptDeterministic ℓ H m (encryptionKey ℓ H d) r) d 64 =
      .ok m := by
  have hspec := decryptValue_spec ℓ 64
    (encryptDeterministic ℓ H m (encryptionKey ℓ H d) r) d hrange (by norm_num)
  rw [decryptPoint_encryptDeterministic] at hspec
  have hval : ((m : ℕ) : ZMod ℓ).val = m := ZMod.val_cast_of_lt (by omega)
  rw [hspec, hval, if_pos hm]

theorem c1_encryption_roundtrip_witness :
    2 ^ 64 ≤ 2 ^ 64 + 13 ∧ (5 : ℕ) < 2 ^ 64 ∧
      decryptValue (2 ^ 64 + 13)
        (encryptDeterministic (2 ^ 64 + 13) 3 5
          (encryptionKey (2 ^ 64 + 13) 3 1) 7) 1 64 = .ok 5 := by
  refine ⟨by decide, by decide, ?_⟩
  have h := c1_encryption_roundtrip (2 ^ 64 + 13) 5 3 7 1 (by decide) (by decide)
  exact h

/-! ## Claim C2 -/

/-- C2: the claim as frozen is false at the odd bit width maxBits = 1.  The
ciphertext (1, 0) decrypts to the point 1 * G0, whose plaintext 1 lies in
[0, 2 ^ 1), yet the search returns AmountOutOfRange, because the baby-step
table and the giant-step loop each range over [0, 2 ^ (maxBits / 2)) and so
cover only [0, 2 ^ (2 * (maxBits / 2))), which excludes 1 for odd maxBits. -/
theorem c2_counterexample :
    decryptPoint 5 ⟨1, 0⟩ 1 = ((1 : ℕ) : ZMod 5) ∧ (1 : ℕ) < 2 ^ 1 ∧
      decryptValue 5 ⟨1, 0⟩ 1 1 ≠ .ok 1 ∧
      decryptValue 5 ⟨1, 0⟩ 1 1 = .error .amountOutOfRange := by decide

/-- C2 (amended to even bit widths): for every ciphertext c, key d and even
maxBits with a collision-free window 2 ^ maxBits ≤ ℓ, decryptValue succeeds
and returns the plaintext m exactly when m lies in [0, 2 ^ maxBits), and
fails with AmountOutOfRange exactly when no value in that range matches the
decrypted point. -/
theorem c2_decrypt_range (ℓ maxBits : ℕ) (c : Ciphertext ℓ) (d : DecryptionKey ℓ)
    (hrange : 2 ^ maxBits ≤ ℓ) (heven : maxBits % 2 = 0) :
    (∀ m : ℕ, decryptValue ℓ c d maxBits = .ok m ↔
      (m < 2 ^ maxBits ∧ ((m : ℕ) : ZMod ℓ) = decryptPoint ℓ c d)) ∧
    (decryptValue ℓ c d maxBits = .error .amountOutOfRange ↔
      ¬ ∃ m, m < 2 ^ maxBits ∧ ((m : ℕ) : ZMod ℓ) = decryptPoint ℓ c d) := by
  have hℓpos : 0 < ℓ := lt_of_lt_of_le (pow_pos (by norm_num) maxBits) hrange
  haveI : NeZero ℓ := ⟨by omega⟩
  have hspec := decryptValue_spec ℓ maxBits c d hrange heven
  have hpcast : ((( decryptPoint ℓ c d).val : ℕ) : ZMod ℓ) = decryptPoint ℓ c d :=
    ZMod.natCast_rightInverse _
  constructor
  · intro m
    constructor
    · intro h
      obtain ⟨hval, hlt⟩ := decryptValue_ok_val ℓ maxBits m c d hrange heven h
      exact ⟨hlt, by rw [← hval]; exact hpcast⟩
    · rintro ⟨hlt, hcast⟩
      have hval : ((m : ℕ) : ZMod ℓ).val = m := ZMod.val_cast_of_lt (by omega)
      have hvm : (decryptPoint ℓ c d).val = m := by rw [← hcast, hval]
      rw [hspec, hvm, if_pos hlt]
  · rw [hspec]
    by_cases hv : (decryptPoint ℓ c d).val < 2 ^ maxBits
    · rw [if_pos hv]
      simp only [reduceCtorEq, false_iff, not_not]
      exact ⟨(decryptPoint ℓ c d).val, hv, hpcast⟩
    · rw [if_neg hv]
      simp only [true_iff]
      rintro ⟨m, hlt, hcast⟩
      have hval : ((m : ℕ) : ZMod ℓ).val = m := ZMod.val_cast_of_lt (by omega)
      have : (decryptPoint ℓ c d).val = m := by rw [← hcast, hval]
      omega

theorem c2_decrypt_range_witness :
    2 ^ 2 ≤ 17 ∧ (2 : ℕ) % 2 = 0 ∧
      ((∀ m : ℕ, decryptValue 17 ⟨3, 0⟩ 1 2 = .ok m ↔
        (m < 2 ^ 2 ∧ ((m : ℕ) : ZMod 17) = decryptPoint 17 ⟨3, 0⟩ 1)) ∧
      (decryptValue 17 ⟨3, 0⟩ 1 2 = .error .amountOutOfRange ↔
        ¬ ∃ m, m < 2 ^ 2 ∧ ((m : ℕ) : ZMod 17) = decryptPoint 17 ⟨3, 0⟩ 1)) :=
  ⟨by decide, by decide, c2_decrypt_range 17 2 ⟨3, 0⟩ 1 (by decide) (by decide)⟩

/-! ## Claim C3 -/

/-- C3: homomorphism.  For ciphertexts c₁ and c₂ under the same key and a
decryption key d, decrypting the pointwise sum equals the sum of the two
individual decryptions whenever both sides lie in the decryptable range
(the sum mod ℓ coincides with the natural sum there, since
2 ^ maxBits ≤ ℓ). -/
theorem c3_homomorphism (ℓ maxBits m₁ m₂ : ℕ) (c₁ c₂ : Ciphertext ℓ)
    (d : DecryptionKey ℓ) (hrange : 2 ^ maxBits ≤ ℓ) (heven : maxBits % 2 = 0)
    (h₁ : decryptValue ℓ c₁ d maxBits = .ok m₁)
    (h₂ : decryptValue ℓ c₂ d maxBits = .ok m₂)
    (hsum : m₁ + m₂ < 2 ^ maxBits) :
    decryptValue ℓ (Ciphertext.add ℓ c₁ c₂) d maxBits = .ok (m₁ + m₂) := by
  have hℓpos : 0 < ℓ := lt_of_lt_of_le (pow_pos (by norm_num) maxBits) hrange
  haveI : NeZero ℓ := ⟨by omega⟩
  obtain ⟨hv₁, hm₁⟩ := decryptValue_ok_val ℓ maxBits m₁ c₁ d hrange heven h₁
  obtain ⟨hv₂, hm₂⟩ := decryptValue_ok_val ℓ maxBits m₂ c₂ d hrange heven h₂
  have hp₁ : decryptPoint ℓ c₁ d = ((m₁ : ℕ) : ZMod ℓ) := by
    rw [← hv₁]; exact (ZMod.natCast_rightInverse _).symm
  have hp₂ : decryptPoint ℓ c₂ d = ((m₂ : ℕ) : ZMod ℓ) := by
    rw [← hv₂]; exact (ZMod.natCast_rightInverse _).symm
  have hadd : decryptPoint ℓ (Ciphertext.add ℓ c₁ c₂) d =
      ((m₁ + m₂ : ℕ) : ZMod ℓ) := by
    rw [decryptPoint_add, hp₁, hp₂, Nat.cast_add]
  have hval : ((m₁ + m₂ : ℕ) : ZMod ℓ).val = m₁ + m₂ :=
    ZMod.val_cast_of_lt (by omega)
  rw [decryptValue_spec ℓ maxBits _ d hrange heven, hadd, hval, if_pos hsum]

theorem c3_homomorphism_witness :
    2 ^ 2 ≤ 17 ∧ (2 : ℕ) % 2 = 0 ∧
      decryptValue 17 ⟨1, 0⟩ 1 2 = .ok 1 ∧ decryptValue 17 ⟨2, 0⟩ 1 2 = .ok 2 ∧
      (1 : ℕ) + 2 < 2 ^ 2 ∧
      decryptValue 17 (Ciphertext.add 17 ⟨1, 0⟩ ⟨2, 0⟩) 1 2 = .ok (1 + 2) :=
  ⟨by decide, by decide, by decide, by decide, by decide,
    c3_homomorphism 17 2 1 2 ⟨1, 0⟩ ⟨2, 0⟩ 1 (by decide) (by decide)
      (by decide) (by decide) (by decide)⟩

set_option maxRecDepth 4000 in
theorem decryptChunksFrom_nil (ℓ : ℕ) (d : DecryptionKey ℓ) (i : ℕ) :
    decryptChunksFrom ℓ d [] i = .ok [] := rfl

set_option maxRecDepth 4000 in
theorem decryptChunksFrom_cons (ℓ : ℕ) (d : DecryptionKey ℓ)
    (c : Ciphertext ℓ) (rest : List (Ciphertext ℓ)) (i : ℕ) :
    decryptChunksFrom ℓ d (c :: rest) i =
      match decryptValue ℓ c d 16 with
      | .ok m =>
        match decryptChunksFrom ℓ d rest (i + 1) with
        | .ok ms => .ok (m :: ms)
        | .error e => .error e
      | .error _ => .error (.chunkDecryptFailed i) := rfl

theorem decryptChunksFrom_ok_spec (ℓ : ℕ) (d : DecryptionKey ℓ) :
    ∀ (l : List (Ciphertext ℓ)) (i₀ : ℕ) (ms : List ℕ),
      decryptChunksFrom ℓ d l i₀ = .ok ms →
      ms.length = l.length ∧
        ∀ k, k < l.length →
          decryptValue ℓ (l.getD k ⟨0, 0⟩) d 16 = .ok (ms.getD k 0) := by
  intro l
  induction l with
  | nil =>
    intro i₀ ms h
    rw [decryptChunksFrom_nil] at h
    obtain rfl : ([] : List ℕ) = ms := Except.ok.inj h
    simp
  | cons c rest ih =>
    intro i₀ ms h
    rw [decryptChunksFrom_cons] at h
    cases hc : decryptValue ℓ c d 16 with
    | error e => simp only [hc] at h; exact Except.noConfusion h
    | ok m =>
      simp only [hc] at h
      cases hr : decryptChunksFrom ℓ d rest (i₀ + 1) with
      | error e => simp only [hr] at h; exact Except.noConfusion h
      | ok ms2 =>
        simp only [hr] at h
        obtain rfl : m :: ms2 = ms := Except.ok.inj h
        obtain ⟨hlen, hall⟩ := ih (i₀ + 1) ms2 hr
        refine ⟨by simp [hlen], ?_⟩
        intro k hk
        cases k with
        | zero => simpa using hc
        | succ k =>
          simp only [List.getD_cons_succ]
          exact hall k (by simpa using hk)

theorem decryptChunksFrom_error_spec (ℓ : ℕ) (d : DecryptionKey ℓ) :
    ∀ (l : List (Ciphertext ℓ)) (i₀ : ℕ) (e : CAError),
      decryptChunksFrom ℓ d l i₀ = .error e →
      ∃ k, k < l.length ∧ e = .chunkDecryptFailed (i₀ + k) ∧
        (∃ e2, decryptValue ℓ (l.getD k ⟨0, 0⟩) d 16 = .error e2) ∧
        ∀ j, j < k → ∃ m, decryptValue ℓ (l.getD j ⟨0, 0⟩) d 16 = .ok m := by
  intro l
  induction l with
  | nil => intro i₀ e h; rw [decryptChunksFrom_nil] at h; exact Except.noConfusion h
  | cons c rest ih =>
    intro i₀ e h
    rw [decryptChunksFrom_cons] at h
    cases hc : decryptValue ℓ c d 16 with
    | error e2 =>
      simp only [hc] at h
      obtain rfl : CAError.chunkDecryptFailed i₀ = e := Except.error.inj h
      exact ⟨0, by simp, by simp, ⟨e2, by simpa using hc⟩,
        fun j hj => absurd hj (by omega)⟩
    | ok m =>
      simp only [hc] at h
      cases hr : decryptChunksFrom ℓ d rest (i₀ + 1) with
      | ok ms => simp only [hr] at h; exact Except.noConfusion h
      | error e3 =>
        simp only [hr] at h
        obtain rfl : e3 = e := Except.error.inj h
        obtain ⟨k, hk, he, hfail, hbefore⟩ := ih (i₀ + 1) e3 hr
        refine ⟨k + 1, by simpa using hk, ?_, by simpa using hfail, ?_⟩
        · rw [he]
          congr 1
          omega
        · intro j hj
          cases j with
          | zero => exact ⟨m, by simpa using hc⟩
          | succ j =>
            simp only [List.getD_cons_succ]
            exact hbefore j (by omega)

theorem decryptChunksFrom_ok_of_all (ℓ : ℕ) (d : DecryptionKey ℓ) :
    ∀ (l : List (Ciphertext ℓ)) (i₀ : ℕ),
      (∀ k, k < l.length → ∃ m, decryptValue ℓ (l.getD k ⟨0, 0⟩) d 16 = .ok m) →
      ∃ ms, decryptChunksFrom ℓ d l i₀ = .ok ms := by
  intro l
  induction l with
  | nil => intro i₀ _; exact ⟨[], rfl⟩
  | cons c rest ih =>
    intro i₀ hall
    obtain ⟨m, hm⟩ := hall 0 (by simp)
    simp only [List.getD_cons_zero] at hm
    obtain ⟨ms, hms⟩ := ih (i₀ + 1)
      (fun k hk => by simpa using hall (k + 1) (by simpa using hk))
    refine ⟨m :: ms, ?_⟩
    rw [decryptChunksFrom_cons]
    simp only [hm, hms]

theorem recompose_eq_sum (ms : List ℕ) :
    recompose ms = ∑ i ∈ Finset.range ms.length, ms.getD i 0 * 2 ^ (16 * i) := by
  induction ms with
  | nil => simp [recompose]
  | cons m ms ih =>
    simp only [recompose, List.length_cons]
    rw [Finset.sum_range_succ']
    simp only [List.getD_cons_succ, List.getD_cons_zero]
    have hterm : ∀ i : ℕ, ms.getD i 0 * 2 ^ (16 * (i + 1)) =
        2 ^ 16 * (ms.getD i 0 * 2 ^ (16 * i)) := by
      intro i
      have h16 : 16 * (i + 1) = 16 * i + 16 := by ring
      rw [h16, pow_add]
      ring
    rw [Finset.sum_congr rfl (fun i _ => hterm i), ← Finset.mul_sum, ← ih]
    simp only [Nat.mul_zero, pow_zero, mul_one]
    omega

/-! ## Claim C4 -/

/-- C4: chunked decryption.  Decrypt runs the 16-bit DL search on each of
the 8 chunks; it fails with ChunkDecryptFailed i when the DL search on
chunk i finds no value (and every earlier chunk succeeds), it fails if and
only if some chunk fails, and on success it returns the recomposed amount
sum of m_i * 2 ^ (16 * i) with chunk 0 the least-significant 16 bits. -/
theorem c4_chunked_decrypt (ℓ : ℕ) (cc : ChunkedCiphertext ℓ) (d : DecryptionKey ℓ) :
    ((∀ k, k < 8 → ∃ m, decryptValue ℓ (cc.chunks.getD k ⟨0, 0⟩) d 16 = .ok m) →
      ∃ ms : List ℕ, ms.length = 8 ∧
        (∀ k, k < 8 →
          decryptValue ℓ (cc.chunks.getD k ⟨0, 0⟩) d 16 = .ok (ms.getD k 0)) ∧
        ChunkedCiphertext.decrypt ℓ cc d =
          .ok (∑ i ∈ Finset.range 8, ms.getD i 0 * 2 ^ (16 * i))) ∧
    (∀ e, ChunkedCiphertext.decrypt ℓ cc d = .error e →
      ∃ i, i < 8 ∧ e = .chunkDecryptFailed i ∧
        (∃ e2, decryptValue ℓ (cc.chunks.getD i ⟨0, 0⟩) d 16 = .error e2) ∧
        ∀ j, j < i → ∃ m, decryptValue ℓ (cc.chunks.getD j ⟨0, 0⟩) d 16 = .ok m) ∧
    ((∃ i, i < 8 ∧ ∃ e2, decryptValue ℓ (cc.chunks.getD i ⟨0, 0⟩) d 16 = .error e2) ↔
      ∃ e, ChunkedCiphertext.decrypt ℓ cc d = .error e) := by
  have hlen := cc.chunks_len
  have hdec_err : ∀ e, ChunkedCiphertext.decrypt ℓ cc d = .error e →
      decryptChunksFrom ℓ d cc.chunks 0 = .error e := by
    intro e he
    revert he
    unfold ChunkedCiphertext.decrypt
    cases h : decryptChunksFrom ℓ d cc.chunks 0 with
    | ok ms => intro he; exact absurd he (by simp)
    | error e2 =>
      intro he
      obtain rfl : e2 = e := Except.error.inj he
      rfl
  refine ⟨?_, ?_, ?_⟩
  · intro hall
    obtain ⟨ms, hms⟩ :=
      decryptChunksFrom_ok_of_all ℓ d cc.chunks 0 (by rw [hlen]; exact hall)
    obtain ⟨hmslen, hmsall⟩ := decryptChunksFrom_ok_spec ℓ d cc.chunks 0 ms hms
    refine ⟨ms, by omega, fun k hk => hmsall k (by omega), ?_⟩
    unfold ChunkedCiphertext.decrypt
    simp only [hms]
    congr 1
    rw [recompose_eq_sum, show ms.length = 8 by omega]
  · intro e he
    obtain ⟨k, hk, hce, hfail, hbefore⟩ :=
      decryptChunksFrom_error_spec ℓ d cc.chunks 0 e (hdec_err e he)
    exact ⟨k, by omega, by simpa using hce, hfail, hbefore⟩
  · constructor
    · rintro ⟨i, hi, e2, he2⟩
      cases h : decryptChunksFrom ℓ d cc.chunks 0 with
      | ok ms =>
        obtain ⟨_, hall⟩ := decryptChunksFrom_ok_spec ℓ d cc.chunks 0 ms h
        have hok := hall i (by omega)
        rw [he2] at hok
        exact absurd hok (by simp)
      | error e3 =>
        refine ⟨e3, ?_⟩
        unfold ChunkedCiphertext.decrypt
        simp only [h]
    · rintro ⟨e, he⟩
      obtain ⟨k, hk, _, hfail, _⟩ :=
        decryptChunksFrom_error_spec ℓ d cc.chunks 0 e (hdec_err e he)
      exact ⟨k, by omega, hfail⟩

theorem c4_chunked_decrypt_witness :
    ((∀ k, k < 8 → ∃ m, decryptValue 5 (sampleChunked.chunks.getD k ⟨0, 0⟩) 1 16 = .ok m) →
      ∃ ms : List ℕ, ms.length = 8 ∧
        (∀ k, k < 8 →
          decryptValue 5 (sampleChunked.chunks.getD k ⟨0, 0⟩) 1 16 = .ok (ms.getD k 0)) ∧
        ChunkedCiphertext.decrypt 5 sampleChunked 1 =
          .ok (∑ i ∈ Finset.range 8, ms.getD i 0 * 2 ^ (16 * i))) ∧
    (∀ e, ChunkedCiphertext.decrypt 5 sampleChunked 1 = .error e →
      ∃ i, i < 8 ∧ e = .chunkDecryptFailed i ∧
        (∃ e2, decryptValue 5 (sampleChunked.chunks.getD i ⟨0, 0⟩) 1 16 = .error e2) ∧
        ∀ j, j < i → ∃ m, decryptValue 5 (sampleChunked.chunks.getD j ⟨0, 0⟩) 1 16 = .ok m) ∧
    ((∃ i, i < 8 ∧ ∃ e2, decryptValue 5 (sampleChunked.chunks.getD i ⟨0, 0⟩) 1 16 = .error e2) ↔
      ∃ e, ChunkedCiphertext.decrypt 5 sampleChunked 1 = .error e) :=
  c4_chunked_decrypt 5 sampleChunked 1

/-! ## Claim C5 -/

/-- C5: withdraw pipeline.  Every orchestrator withdraw(token, amount) (on
a sufficient balance) first fetches the current state, performs a rollover
exactly when the pending amount is nonzero and a normalization exactly when
the balance is not normalized, and ends by building a WithdrawalProof and
invoking the on-chain withdraw entry function with
(token, amount, C_new, proof). -/
theorem c5_withdraw_pipeline (token amount : ℕ) (st : OrchState)
    (hbal : amount ≤ totalBalance st) :
    ∃ acts : List Action, withdraw token amount st = .ok acts ∧
      acts.head? = some (.fetchState token) ∧
      (Action.submitRollover token ∈ acts ↔ st.pendingAmount ≠ 0) ∧
      (Action.submitNormalize token ∈ acts ↔ st.isNormalized = false) ∧
      acts.getLast? = some (.submitWithdraw token amount (totalBalance st - amount)
        (buildWithdrawalProof token amount (totalBalance st - amount))) := by
  unfold withdraw
  rw [if_neg (by omega)]
  refine ⟨_, rfl, ?_, ?_, ?_⟩
  · by_cases hp : st.pendingAmount = 0 <;> by_cases hn : st.isNormalized <;>
      simp [hp, hn]
  · by_cases hp : st.pendingAmount = 0 <;> by_cases hn : st.isNormalized <;>
      simp [hp, hn]
  · by_cases hp : st.pendingAmount = 0 <;> by_cases hn : st.isNormalized <;>
      simp [hp, hn, List.getLast?]

theorem c5_withdraw_pipeline_witness :
    (1 : ℕ) ≤ totalBalance ⟨0, 5, true, false⟩ ∧
      (∃ acts : List Action, withdraw 2 1 ⟨0, 5, true, false⟩ = .ok acts ∧
        acts.head? = some (.fetchState 2) ∧
        (Action.submitRollover 2 ∈ acts ↔
          OrchState.pendingAmount ⟨0, 5, true, false⟩ ≠ 0) ∧
        (Action.submitNormalize 2 ∈ acts ↔
          OrchState.isNormalized ⟨0, 5, true, false⟩ = false) ∧
        acts.getLast? = some (.submitWithdraw 2 1
          (totalBalance ⟨0, 5, true, false⟩ - 1)
          (buildWithdrawalProof 2 1 (totalBalance ⟨0, 5, true, false⟩ - 1)))) :=
  ⟨by decide, c5_withdraw_pipeline 2 1 ⟨0, 5, true, false⟩ (by decide)⟩

/-! ## Claim C7 -/

/-- C7: rotation precondition.  A rotate attempted while the pending amount
is nonzero or the balance is not normalized is refused locally with
Unnormalized, producing no actions at all (so no proof is built and no
transaction is submitted); rotate succeeds exactly when the pending
ciphertext is empty and the balance is normalized, and then emits only the
fetch and the rotate call. -/
theorem c7_rotate_requires_normalized (token newKey : ℕ) (st : OrchState) :
    (rotateEncryptionKey token newKey st = .error .unnormalized ↔
      ¬ (st.pendingAmount = 0 ∧ st.isNormalized = true)) ∧
    (∀ acts, rotateEncryptionKey token newKey st = .ok acts →
      st.pendingAmount = 0 ∧ st.isNormalized = true ∧
      acts = [Action.fetchState token,
        Action.submitRotate token newKey st.availableAmount
          (buildRotationProof token newKey st.availableAmount)]) := by
  unfold rotateEncryptionKey
  by_cases hcond : st.pendingAmount = 0 ∧ st.isNormalized
  · rw [if_pos hcond]
    refine ⟨by simp [hcond.1, hcond.2], ?_⟩
    intro acts hacts
    exact ⟨hcond.1, by simp [hcond.2], (Except.ok.inj hacts).symm⟩
  · rw [if_neg hcond]
    refine ⟨by simpa using hcond, ?_⟩
    intro acts hacts
    exact Except.noConfusion hacts

theorem c7_rotate_requires_normalized_witness :
    ((rotateEncryptionKey 2 7 ⟨3, 5, true, false⟩ = .error .unnormalized ↔
      ¬ ((3 : ℕ) = 0 ∧ (true : Bool) = true)) ∧
    (∀ acts, rotateEncryptionKey 2 7 ⟨3, 5, true, false⟩ = .ok acts →
      (3 : ℕ) = 0 ∧ (true : Bool) = true ∧
      acts = [Action.fetchState 2,
        Action.submitRotate 2 7 5 (buildRotationProof 2 7 5)])) :=
  c7_rotate_requires_normalized 2 7 ⟨3, 5, true, false⟩

/-! ## Claim C8 -/

/-- C8: insufficient-balance atomicity.  A transfer or withdraw whose
amount exceeds the decrypted balance fails locally with
InsufficientBalance and produces no action list, so nothing is submitted
to the chain. -/
theorem c8_insufficient_balance (token recipient amount : ℕ) (st : OrchState)
    (h : totalBalance st < amount) :
    transfer token recipient amount st = .error .insufficientBalance ∧
    withdraw token amount st = .error .insufficientBalance ∧
    (∀ acts, transfer token recipient amount st ≠ .ok acts) ∧
    (∀ acts, withdraw token amount st ≠ .ok acts) := by
  unfold transfer withdraw
  rw [if_pos h, if_pos h]
  exact ⟨rfl, rfl, fun acts => Except.noConfusion, fun acts => Except.noConfusion⟩

theorem c8_insufficient_balance_witness :
    totalBalance ⟨0, 1, true, false⟩ < 2 ∧
      (transfer 2 9 2 ⟨0, 1, true, false⟩ = .error .insufficientBalance ∧
       withdraw 2 2 ⟨0, 1, true, false⟩ = .error .insufficientBalance ∧
       (∀ acts, transfer 2 9 2 ⟨0, 1, true, false⟩ ≠ .ok acts) ∧
       (∀ acts, withdraw 2 2 ⟨0, 1, true, false⟩ ≠ .ok acts)) :=
  ⟨by decide, c8_insufficient_balance 2 9 2 ⟨0, 1, true, false⟩ (by decide)⟩

/-! ### Codec lemmas -/

theorem encodeLE_length : ∀ (k n : ℕ), (encodeLE k n).length = k := by
  intro k
  induction k with
  | zero => intro n; rfl
  | succ k ih => intro n; simp [encodeLE, ih]

theorem encodeLE_lt : ∀ (k n : ℕ), ∀ b ∈ encodeLE k n, b < 256 := by
  intro k
  induction k with
  | zero => intro n b hb; simp [encodeLE] at hb
  | succ k ih =>
    intro n b hb
    simp only [encodeLE, List.mem_cons] at hb
    rcases hb with hb | hb
    · subst hb; exact Nat.mod_lt _ (by norm_num)
    · exact ih (n / 256) b hb

theorem decodeLEval_encodeLE : ∀ (k n : ℕ), n < 256 ^ k →
    decodeLEval (encodeLE k n) = n := by
  intro k
  induction k with
  | zero => intro n hn; interval_cases n; rfl
  | succ k ih =>
    intro n hn
    simp only [encodeLE, decodeLEval]
    rw [ih (n / 256) (by
      have : 256 ^ (k + 1) = 256 * 256 ^ k := by ring
      omega)]
    omega

theorem encodeLE_decodeLEval : ∀ (bs : List ℕ), (∀ b ∈ bs, b < 256) →
    encodeLE bs.length (decodeLEval bs) = bs := by
  intro bs
  induction bs with
  | nil => intro _; rfl
  | cons b rest ih =>
    intro hv
    have hb : b < 256 := hv b (by simp)
    simp only [List.length_cons, encodeLE, decodeLEval]
    have hhead : (b + 256 * decodeLEval rest) % 256 = b := by omega
    have hdiv : (b + 256 * decodeLEval rest) / 256 = decodeLEval rest := by omega
    rw [hhead, hdiv, ih (fun x hx => hv x (by simp [hx]))]

theorem takeExact_append (a b : List ℕ) : takeExact a.length (a ++ b) = some (a, b) := by
  unfold takeExact
  rw [if_pos (by simp)]
  rw [List.take_left, List.drop_left]

theorem takeExact_append_of_len (n : ℕ) (a b : List ℕ) (h : a.length = n) :
    takeExact n (a ++ b) = some (a, b) := by
  subst h
  exact takeExact_append a b

theorem takeExact_some_spec (n : ℕ) (bs a b : List ℕ)
    (h : takeExact n bs = some (a, b)) : bs = a ++ b ∧ a.length = n := by
  unfold takeExact at h
  by_cases hle : n ≤ bs.length
  · rw [if_pos hle] at h
    have hpair : (bs.take n, bs.drop n) = (a, b) := Option.some.inj h
    obtain ⟨h1, h2⟩ := Prod.mk.injEq .. ▸ hpair
    subst h1
    subst h2
    exact ⟨(List.take_append_drop n bs).symm, by simp [List.length_take]; omega⟩
  · rw [if_neg hle] at h
    exact Option.noConfusion h

theorem decodePoint_encodePoint (ℓ : ℕ) (hℓ : ℓ ≤ 256 ^ 32) (hpos : 0 < ℓ)
    (p : Point ℓ) : decodePoint ℓ (encodePoint ℓ p) = some p := by
  haveI : NeZero ℓ := ⟨by omega⟩
  have hval : ZMod.val p < ℓ := ZMod.val_lt p
  have hdec : decodeLEval (encodeLE 32 (ZMod.val p)) = ZMod.val p :=
    decodeLEval_encodeLE 32 _ (by omega)
  unfold decodePoint encodePoint
  rw [if_pos ⟨encodeLE_length 32 _, encodeLE_lt 32 _, by rw [hdec]; omega⟩, hdec]
  rw [ZMod.natCast_rightInverse p]

theorem encodePoint_decodePoint (ℓ : ℕ) (bs : List ℕ) (p : Point ℓ)
    (h : decodePoint ℓ bs = some p) : encodePoint ℓ p = bs := by
  unfold decodePoint at h
  by_cases hcond : bs.length = 32 ∧ (∀ b ∈ bs, b < 256) ∧ decodeLEval bs < ℓ
  · rw [if_pos hcond] at h
    obtain rfl : ((decodeLEval bs : ℕ) : ZMod ℓ) = p := Option.some.inj h
    unfold encodePoint
    rw [ZMod.val_cast_of_lt hcond.2.2, ← hcond.1]
    exact encodeLE_decodeLEval bs hcond.2.1
  · rw [if_neg hcond] at h
    exact Option.noConfusion h

theorem decodeCiphertext_encodeCiphertext (ℓ : ℕ) (hℓ : ℓ ≤ 256 ^ 32)
    (hpos : 0 < ℓ) (c : Ciphertext ℓ) :
    decodeCiphertext ℓ (encodeCiphertext ℓ c) = some c := by
  have hC : (encodePoint ℓ c.C).length = 32 := encodeLE_length 32 _
  have hD : (encodePoint ℓ c.D).length = 32 := encodeLE_length 32 _
  unfold decodeCiphertext encodeCiphertext
  rw [if_pos (by simp [hC, hD])]
  have htake : (encodePoint ℓ c.C ++ encodePoint ℓ c.D).take 32 = encodePoint ℓ c.C := by
    rw [← hC, List.take_left]
  have hdrop : (encodePoint ℓ c.C ++ encodePoint ℓ c.D).drop 32 = encodePoint ℓ c.D := by
    rw [← hC, List.drop_left]
  rw [htake, hdrop, decodePoint_encodePoint ℓ hℓ hpos c.C,
    decodePoint_encodePoint ℓ hℓ hpos c.D]

theorem encodeCiphertext_decodeCiphertext (ℓ : ℕ) (bs : List ℕ) (c : Ciphertext ℓ)
    (h : decodeCiphertext ℓ bs = some c) : encodeCiphertext ℓ c = bs := by
  unfold decodeCiphertext at h
  by_cases hlen : bs.length = 64
  · rw [if_pos hlen] at h
    cases hx : decodePoint ℓ (bs.take 32) with
    | none => simp only [hx] at h; exact Option.noConfusion h
    | some x =>
      cases hy : decodePoint ℓ (bs.drop 32) with
      | none => simp only [hx, hy] at h; exact Option.noConfusion h
      | some y =>
        simp only [hx, hy] at h
        obtain rfl : (⟨x, y⟩ : Ciphertext ℓ) = c := Option.some.inj h
        unfold encodeCiphertext
        rw [encodePoint_decodePoint ℓ _ _ hx, encodePoint_decodePoint ℓ _ _ hy]
        exact List.take_append_drop 32 bs
  · rw [if_neg hlen] at h
    exact Option.noConfusion h

theorem decodeRangeProofs_zero (bs : List ℕ) :
    decodeRangeProofs 0 bs = some ([], bs) := rfl

theorem decodeRangeProofs_succ (k : ℕ) (bs : List ℕ) :
    decodeRangeProofs (k + 1) bs =
      match takeExact 4 bs with
      | some (lenB, rest) =>
        if ∀ b ∈ lenB, b < 256 then
          match takeExact (decodeLEval lenB) rest with
          | some (rp, rest2) =>
            match decodeRangeProofs k rest2 with
            | some (rps, rest3) => some (rp :: rps, rest3)
            | none => none
          | none => none
        else none
      | none => none := rfl

theorem decodeRangeProofs_encode (rps : List (List ℕ)) (suffix : List ℕ)
    (hlen : ∀ rp ∈ rps, rp.length < 256 ^ 4) :
    decodeRangeProofs rps.length (encodeRangeProofs rps ++ suffix) =
      some (rps, suffix) := by
  induction rps with
  | nil => simp [encodeRangeProofs, decodeRangeProofs_zero]
  | cons rp rest ih =>
    rw [List.length_cons, decodeRangeProofs_succ]
    have hshape : encodeRangeProofs (rp :: rest) ++ suffix =
        encodeLE 4 rp.length ++ (rp ++ (encodeRangeProofs rest ++ suffix)) := by
      simp [encodeRangeProofs, List.append_assoc]
    rw [hshape]
    rw [takeExact_append_of_len 4 _ _ (encodeLE_length 4 rp.length)]
    simp only
    rw [if_pos (encodeLE_lt 4 rp.length)]
    rw [decodeLEval_encodeLE 4 rp.length (hlen rp (by simp))]
    rw [takeExact_append_of_len rp.length rp _ rfl]
    simp only
    rw [ih (fun q hq => hlen q (by simp [hq]))]

theorem decodeRangeProofs_spec :
    ∀ (k : ℕ) (bs : List ℕ) (rps : List (List ℕ)) (rest3 : List ℕ),
      decodeRangeProofs k bs = some (rps, rest3) →
      encodeRangeProofs rps ++ rest3 = bs ∧ rps.length = k := by
  intro k
  induction k with
  | zero =>
    intro bs rps rest3 h
    rw [decodeRangeProofs_zero] at h
    have hpair : (([] : List (List ℕ)), bs) = (rps, rest3) := Option.some.inj h
    obtain ⟨h1, h2⟩ := Prod.mk.injEq .. ▸ hpair
    subst h1
    subst h2
    exact ⟨by simp [encodeRangeProofs], rfl⟩
  | succ k ih =>
    intro bs rps rest3 h
    rw [decodeRangeProofs_succ] at h
    cases ht : takeExact 4 bs with
    | none => simp only [ht] at h; exact Option.noConfusion h
    | some pair =>
      obtain ⟨lenB, rest⟩ := pair
      simp only [ht] at h
      by_cases hv : ∀ b ∈ lenB, b < 256
      · rw [if_pos hv] at h
        cases ht2 : takeExact (decodeLEval lenB) rest with
        | none => simp only [ht2] at h; exact Option.noConfusion h
        | some pair2 =>
          obtain ⟨rp, rest2⟩ := pair2
          simp only [ht2] at h
          cases hd : decodeRangeProofs k rest2 with
          | none => simp only [hd] at h; exact Option.noConfusion h
          | some pair3 =>
            obtain ⟨rps2, r3⟩ := pair3
            simp only [hd] at h
            have hpair : (rp :: rps2, r3) = (rps, rest3) := Option.some.inj h
            obtain ⟨h1, h2⟩ := Prod.mk.injEq .. ▸ hpair
            subst h1
            subst h2
            obtain ⟨hbs, hlenB⟩ := takeExact_some_spec 4 bs lenB rest ht
            obtain ⟨hrest, hrp⟩ :=
              takeExact_some_spec (decodeLEval lenB) rest rp rest2 ht2
            obtain ⟨hrest2, hrps2⟩ := ih rest2 rps2 r3 hd
            refine ⟨?_, by simp [hrps2]⟩
            have henc : encodeLE 4 rp.length = lenB := by
              rw [hrp, ← hlenB]
              exact encodeLE_decodeLEval lenB hv
            rw [hbs, hrest, ← hrest2]
            simp [encodeRangeProofs, henc, List.append_assoc]
      · rw [if_neg hv] at h
        exact Option.noConfusion h

theorem decodeWithdrawalProof_encode (pf : WithdrawalProofWire)
    (hs : pf.sigma.length = SIGMA_PROOF_WITHDRAW_SIZE)
    (h8 : pf.rangeProofs.length = 8)
    (hr : ∀ rp ∈ pf.rangeProofs, rp.length < 256 ^ 4) :
    decodeWithdrawalProof (encodeWithdrawalProof pf) = some pf := by
  unfold decodeWithdrawalProof encodeWithdrawalProof
  have hshape : encodeLE 2 proofVersion ++ pf.sigma ++ encodeRangeProofs pf.rangeProofs =
      encodeLE 2 proofVersion ++ (pf.sigma ++ encodeRangeProofs pf.rangeProofs) := by
    simp [List.append_assoc]
  rw [hshape, takeExact_append_of_len 2 _ _ (encodeLE_length 2 proofVersion)]
  simp only
  rw [if_pos trivial, takeExact_append_of_len SIGMA_PROOF_WITHDRAW_SIZE _ _ hs]
  simp only
  have hnil : encodeRangeProofs pf.rangeProofs =
      encodeRangeProofs pf.rangeProofs ++ [] := by simp
  rw [hnil, show (8 : ℕ) = pf.rangeProofs.length from h8.symm,
    decodeRangeProofs_encode pf.rangeProofs [] hr]
  simp only
  rw [if_pos trivial]

theorem encodeWithdrawalProof_decode (bs : List ℕ) (pf : WithdrawalProofWire)
    (h : decodeWithdrawalProof bs = some pf) : encodeWithdrawalProof pf = bs := by
  unfold decodeWithdrawalProof at h
  cases ht : takeExact 2 bs with
  | none => simp only [ht] at h; exact Option.noConfusion h
  | some pair =>
    obtain ⟨vB, rest⟩ := pair
    simp only [ht] at h
    by_cases hv : vB = encodeLE 2 proofVersion
    · rw [if_pos hv] at h
      cases ht2 : takeExact SIGMA_PROOF_WITHDRAW_SIZE rest with
      | none => simp only [ht2] at h; exact Option.noConfusion h
      | some pair2 =>
        obtain ⟨sg, rest2⟩ := pair2
        simp only [ht2] at h
        cases hd : decodeRangeProofs 8 rest2 with
        | none => simp only [hd] at h; exact Option.noConfusion h
        | some pair3 =>
          obtain ⟨rps, rest3⟩ := pair3
          simp only [hd] at h
          by_cases h3 : rest3 = []
          · rw [if_pos h3] at h
            obtain rfl : (⟨sg, rps⟩ : WithdrawalProofWire) = pf := Option.some.inj h
            obtain ⟨hbs, _⟩ := takeExact_some_spec 2 bs vB rest ht
            obtain ⟨hrest, _⟩ :=
              takeExact_some_spec SIGMA_PROOF_WITHDRAW_SIZE rest sg rest2 ht2
            obtain ⟨hrest2, _⟩ := decodeRangeProofs_spec 8 rest2 rps rest3 hd
            unfold encodeWithdrawalProof
            rw [hbs, hrest, ← hrest2, h3, ← hv]
            simp [List.append_assoc]
          · rw [if_neg h3] at h
            exact Option.noConfusion h
    · rw [if_neg hv] at h
      exact Option.noConfusion h

theorem encodePoint_length (ℓ : ℕ) (p : Point ℓ) : (encodePoint ℓ p).length = 32 :=
  encodeLE_length 32 _

theorem encodeCiphertext_length (ℓ : ℕ) (c : Ciphertext ℓ) :
    (encodeCiphertext ℓ c).length = 64 := by
  unfold encodeCiphertext
  rw [List.length_append, encodePoint_length, encodePoint_length]

theorem decodeFixedProof_encode (sigmaSize nRanges : ℕ) (sg : List ℕ)
    (rps : List (List ℕ)) (hs : sg.length = sigmaSize) (hn : rps.length = nRanges)
    (hr : ∀ rp ∈ rps, rp.length < 256 ^ 4) :
    decodeFixedProof sigmaSize nRanges (encodeFixedProof sg rps) = some (sg, rps) := by
  unfold decodeFixedProof encodeFixedProof
  have hshape : encodeLE 2 proofVersion ++ sg ++ encodeRangeProofs rps =
      encodeLE 2 proofVersion ++ (sg ++ encodeRangeProofs rps) := by
    simp [List.append_assoc]
  rw [hshape, takeExact_append_of_len 2 _ _ (encodeLE_length 2 proofVersion)]
  simp only
  rw [if_pos trivial, takeExact_append_of_len sigmaSize _ _ hs]
  simp only
  have hnil : encodeRangeProofs rps = encodeRangeProofs rps ++ [] := by simp
  rw [hnil, show nRanges = rps.length from hn.symm,
    decodeRangeProofs_encode rps [] hr]
  simp only
  rw [if_pos trivial]

theorem encodeFixedProof_decode (sigmaSize nRanges : ℕ) (bs sg : List ℕ)
    (rps : List (List ℕ))
    (h : decodeFixedProof sigmaSize nRanges bs = some (sg, rps)) :
    encodeFixedProof sg rps = bs := by
  unfold decodeFixedProof at h
  cases ht : takeExact 2 bs with
  | none => simp only [ht] at h; exact Option.noConfusion h
  | some pair =>
    obtain ⟨vB, rest⟩ := pair
    simp only [ht] at h
    by_cases hv : vB = encodeLE 2 proofVersion
    · rw [if_pos hv] at h
      cases ht2 : takeExact sigmaSize rest with
      | none => simp only [ht2] at h; exact Option.noConfusion h
      | some pair2 =>
        obtain ⟨sg2, rest2⟩ := pair2
        simp only [ht2] at h
        cases hd : decodeRangeProofs nRanges rest2 with
        | none => simp only [hd] at h; exact Option.noConfusion h
        | some pair3 =>
          obtain ⟨rps2, rest3⟩ := pair3
          simp only [hd] at h
          by_cases h3 : rest3 = []
          · rw [if_pos h3] at h
            have hpair : (sg2, rps2) = (sg, rps) := Option.some.inj h
            obtain ⟨h1, h2⟩ := Prod.mk.injEq .. ▸ hpair
            subst h1
            subst h2
            obtain ⟨hbs, _⟩ := takeExact_some_spec 2 bs vB rest ht
            obtain ⟨hrest, _⟩ := takeExact_some_spec sigmaSize rest sg2 rest2 ht2
            obtain ⟨hrest2, _⟩ := decodeRangeProofs_spec nRanges rest2 rps2 rest3 hd
            unfold encodeFixedProof
            rw [hbs, hrest, ← hrest2, h3, ← hv]
            simp [List.append_assoc]
          · rw [if_neg h3] at h
            exact Option.noConfusion h
    · rw [if_neg hv] at h
      exact Option.noConfusion h

theorem decodeNormalizationProof_encode (pf : NormalizationProofWire)
    (hs : pf.sigma.length = SIGMA_PROOF_NORMALIZATION_SIZE)
    (h8 : pf.rangeProofs.length = 8)
    (hr : ∀ rp ∈ pf.rangeProofs, rp.length < 256 ^ 4) :
    decodeNormalizationProof (encodeNormalizationProof pf) = some pf := by
  unfold decodeNormalizationProof encodeNormalizationProof
  rw [decodeFixedProof_encode _ _ _ _ hs h8 hr]

theorem encodeNormalizationProof_decode (bs : List ℕ) (pf : NormalizationProofWire)
    (h : decodeNormalizationProof bs = some pf) :
    encodeNormalizationProof pf = bs := by
  unfold decodeNormalizationProof at h
  cases hd : decodeFixedProof SIGMA_PROOF_NORMALIZATION_SIZE 8 bs with
  | none => simp only [hd] at h; exact Option.noConfusion h
  | some pair =>
    obtain ⟨sg, rps⟩ := pair
    simp only [hd] at h
    obtain rfl : (⟨sg, rps⟩ : NormalizationProofWire) = pf := Option.some.inj h
    exact encodeFixedProof_decode _ _ bs sg rps hd

theorem decodeRotationProof_encode (pf : RotationProofWire)
    (hs : pf.sigma.length = SIGMA_PROOF_KEY_ROTATION_SIZE)
    (h8 : pf.rangeProofs.length = 8)
    (hr : ∀ rp ∈ pf.rangeProofs, rp.length < 256 ^ 4) :
    decodeRotationProof (encodeRotationProof pf) = some pf := by
  unfold decodeRotationProof encodeRotationProof
  rw [decodeFixedProof_encode _ _ _ _ hs h8 hr]

theorem encodeRotationProof_decode (bs : List ℕ) (pf : RotationProofWire)
    (h : decodeRotationProof bs = some pf) : encodeRotationProof pf = bs := by
  unfold decodeRotationProof at h
  cases hd : decodeFixedProof SIGMA_PROOF_KEY_ROTATION_SIZE 8 bs with
  | none => simp only [hd] at h; exact Option.noConfusion h
  | some pair =>
    obtain ⟨sg, rps⟩ := pair
    simp only [hd] at h
    obtain rfl : (⟨sg, rps⟩ : RotationProofWire) = pf := Option.some.inj h
    exact encodeFixedProof_decode _ _ bs sg rps hd

theorem decodePointList_zero (ℓ : ℕ) (bs : List ℕ) :
    decodePointList ℓ 0 bs = some ([], bs) := rfl

theorem decodePointList_succ (ℓ n : ℕ) (bs : List ℕ) :
    decodePointList ℓ (n + 1) bs =
      match takeExact 32 bs with
      | some (pb, rest) =>
        match decodePoint ℓ pb with
        | some p =>
          match decodePointList ℓ n rest with
          | some (ps, rest2) => some (p :: ps, rest2)
          | none => none
        | none => none
      | none => none := rfl

theorem decodeCiphertextList_zero (ℓ : ℕ) (bs : List ℕ) :
    decodeCiphertextList ℓ 0 bs = some ([], bs) := rfl

theorem decodeCiphertextList_succ (ℓ n : ℕ) (bs : List ℕ) :
    decodeCiphertextList ℓ (n + 1) bs =
      match takeExact 64 bs with
      | some (cb, rest) =>
        match decodeCiphertext ℓ cb with
        | some c =>
          match decodeCiphertextList ℓ n rest with
          | some (cs, rest2) => some (c :: cs, rest2)
          | none => none
        | none => none
      | none => none := rfl

theorem decodeChunkedCiphertextList_zero (ℓ : ℕ) (bs : List ℕ) :
    decodeChunkedCiphertextList ℓ 0 bs = some ([], bs) := rfl

theorem decodeChunkedCiphertextList_succ (ℓ k : ℕ) (bs : List ℕ) :
    decodeChunkedCiphertextList ℓ (k + 1) bs =
      match decodeCiphertextList ℓ 8 bs with
      | some (cs, rest) =>
        if h : cs.length = 8 then
          match decodeChunkedCiphertextList ℓ k rest with
          | some (ccs, rest2) => some (⟨cs, h⟩ :: ccs, rest2)
          | none => none
        else none
      | none => none := rfl

theorem decodePointList_encode (ℓ : ℕ) (hℓ : ℓ ≤ 256 ^ 32) (hpos : 0 < ℓ) :
    ∀ (ps : List (Point ℓ)) (suffix : List ℕ),
      decodePointList ℓ ps.length (encodePointList ℓ ps ++ suffix) =
        some (ps, suffix) := by
  intro ps
  induction ps with
  | nil => intro suffix; simp [encodePointList, decodePointList_zero]
  | cons p rest ih =>
    intro suffix
    rw [List.length_cons, decodePointList_succ]
    have hshape : encodePointList ℓ (p :: rest) ++ suffix =
        encodePoint ℓ p ++ (encodePointList ℓ rest ++ suffix) := by
      simp [encodePointList, List.append_assoc]
    rw [hshape, takeExact_append_of_len 32 _ _ (encodePoint_length ℓ p)]
    simp only
    rw [decodePoint_encodePoint ℓ hℓ hpos p]
    simp only
    rw [ih suffix]

theorem decodePointList_spec (ℓ : ℕ) :
    ∀ (n : ℕ) (bs : List ℕ) (ps : List (Point ℓ)) (rest : List ℕ),
      decodePointList ℓ n bs = some (ps, rest) →
      encodePointList ℓ ps ++ rest = bs ∧ ps.length = n := by
  intro n
  induction n with
  | zero =>
    intro bs ps rest h
    rw [decodePointList_zero] at h
    have hpair : (([] : List (Point ℓ)), bs) = (ps, rest) := Option.some.inj h
    obtain ⟨h1, h2⟩ := Prod.mk.injEq .. ▸ hpair
    subst h1
    subst h2
    exact ⟨by simp [encodePointList], rfl⟩
  | succ n ih =>
    intro bs ps rest h
    rw [decodePointList_succ] at h
    cases ht : takeExact 32 bs with
    | none => simp only [ht] at h; exact Option.noConfusion h
    | some pair =>
      obtain ⟨pb, r1⟩ := pair
      simp only [ht] at h
      cases hp : decodePoint ℓ pb with
      | none => simp only [hp] at h; exact Option.noConfusion h
      | some p =>
        simp only [hp] at h
        cases hrec : decodePointList ℓ n r1 with
        | none => simp only [hrec] at h; exact Option.noConfusion h
        | some pair2 =>
          obtain ⟨ps2, r2⟩ := pair2
          simp only [hrec] at h
          have hpair : (p :: ps2, r2) = (ps, rest) := Option.some.inj h
          obtain ⟨h1, h2⟩ := Prod.mk.injEq .. ▸ hpair
          subst h1
          subst h2
          obtain ⟨hbs, _⟩ := takeExact_some_spec 32 bs pb r1 ht
          obtain ⟨henc, hlen⟩ := ih r1 ps2 r2 hrec
          refine ⟨?_, by simp [hlen]⟩
          have hpoint : encodePoint ℓ p = pb := encodePoint_decodePoint ℓ pb p hp
          rw [hbs, ← henc]
          simp [encodePointList, hpoint, List.append_assoc]

theorem decodeCiphertextList_encode (ℓ : ℕ) (hℓ : ℓ ≤ 256 ^ 32) (hpos : 0 < ℓ) :
    ∀ (cs : List (Ciphertext ℓ)) (suffix : List ℕ),
      decodeCiphertextList ℓ cs.length (encodeCiphertextList ℓ cs ++ suffix) =
        some (cs, suffix) := by
  intro cs
  induction cs with
  | nil => intro suffix; simp [encodeCiphertextList, decodeCiphertextList_zero]
  | cons c rest ih =>
    intro suffix
    rw [List.length_cons, decodeCiphertextList_succ]
    have hshape : encodeCiphertextList ℓ (c :: rest) ++ suffix =
        encodeCiphertext ℓ c ++ (encodeCiphertextList ℓ rest ++ suffix) := by
      simp [encodeCiphertextList, List.append_assoc]
    rw [hshape, takeExact_append_of_len 64 _ _ (encodeCiphertext_length ℓ c)]
    simp only
    rw [decodeCiphertext_encodeCiphertext ℓ hℓ hpos c]
    simp only
    rw [ih suffix]

theorem decodeCiphertextList_spec (ℓ : ℕ) :
    ∀ (n : ℕ) (bs : List ℕ) (cs : List (Ciphertext ℓ)) (rest : List ℕ),
      decodeCiphertextList ℓ n bs = some (cs, rest) →
      encodeCiphertextList ℓ cs ++ rest = bs ∧ cs.length = n := by
  intro n
  induction n with
  | zero =>
    intro bs cs rest h
    rw [decodeCiphertextList_zero] at h
    have hpair : (([] : List (Ciphertext ℓ)), bs) = (cs, rest) := Option.some.inj h
    obtain ⟨h1, h2⟩ := Prod.mk.injEq .. ▸ hpair
    subst h1
    subst h2
    exact ⟨by simp [encodeCiphertextList], rfl⟩
  | succ n ih =>
    intro bs cs rest h
    rw [decodeCiphertextList_succ] at h
    cases ht : takeExact 64 bs with
    | none => simp only [ht] at h; exact Option.noConfusion h
    | some pair =>
      obtain ⟨cb, r1⟩ := pair
      simp only [ht] at h
      cases hc : decodeCiphertext ℓ cb with
      | none => simp only [hc] at h; exact Option.noConfusion h
      | some c =>
        simp only [hc] at h
        cases hrec : decodeCiphertextList ℓ n r1 with
        | none => simp only [hrec] at h; exact Option.noConfusion h
        | some pair2 =>
          obtain ⟨cs2, r2⟩ := pair2
          simp only [hrec] at h
          have hpair : (c :: cs2, r2) = (cs, rest) := Option.some.inj h
          obtain ⟨h1, h2⟩ := Prod.mk.injEq .. ▸ hpair
          subst h1
          subst h2
          obtain ⟨hbs, _⟩ := takeExact_some_spec 64 bs cb r1 ht
          obtain ⟨henc, hlen⟩ := ih r1 cs2 r2 hrec
          refine ⟨?_, by simp [hlen]⟩
          have hct : encodeCiphertext ℓ c = cb := encodeCiphertext_decodeCiphertext ℓ cb c hc
          rw [hbs, ← henc]
          simp [encodeCiphertextList, hct, List.append_assoc]

theorem decodeChunkedCiphertext_encode (ℓ : ℕ) (hℓ : ℓ ≤ 256 ^ 32) (hpos : 0 < ℓ)
    (cc : ChunkedCiphertext ℓ) :
    decodeChunkedCiphertext ℓ (encodeChunkedCiphertext ℓ cc) = some cc := by
  have hdec : decodeCiphertextList ℓ 8 (encodeCiphertextList ℓ cc.chunks ++ []) =
      some (cc.chunks, []) := by
    rw [show (8 : ℕ) = cc.chunks.length from cc.chunks_len.symm]
    exact decodeCiphertextList_encode ℓ hℓ hpos cc.chunks []
  unfold decodeChunkedCiphertext encodeChunkedCiphertext
  have hnil : encodeCiphertextList ℓ cc.chunks =
      encodeCiphertextList ℓ cc.chunks ++ [] := by simp
  rw [hnil]
  simp only [hdec]
  rw [if_pos trivial, dif_pos cc.chunks_len]

theorem encodeChunkedCiphertext_decode (ℓ : ℕ) (bs : List ℕ)
    (cc : ChunkedCiphertext ℓ) (h : decodeChunkedCiphertext ℓ bs = some cc) :
    encodeChunkedCiphertext ℓ cc = bs := by
  unfold decodeChunkedCiphertext at h
  cases hd : decodeCiphertextList ℓ 8 bs with
  | none => simp only [hd] at h; exact Option.noConfusion h
  | some pair =>
    obtain ⟨cs, rest⟩ := pair
    simp only [hd] at h
    by_cases hrest : rest = []
    · rw [if_pos hrest] at h
      by_cases hlen : cs.length = 8
      · rw [dif_pos hlen] at h
        obtain rfl : (⟨cs, hlen⟩ : ChunkedCiphertext ℓ) = cc := Option.some.inj h
        obtain ⟨henc, _⟩ := decodeCiphertextList_spec ℓ 8 bs cs rest hd
        unfold encodeChunkedCiphertext
        rw [← henc, hrest]
        simp
      · rw [dif_neg hlen] at h
        exact Option.noConfusion h
    · rw [if_neg hrest] at h
      exact Option.noConfusion h

theorem decodeChunkedCiphertextList_encode (ℓ : ℕ) (hℓ : ℓ ≤ 256 ^ 32)
    (hpos : 0 < ℓ) :
    ∀ (ccs : List (ChunkedCiphertext ℓ)) (suffix : List ℕ),
      decodeChunkedCiphertextList ℓ ccs.length
        (encodeChunkedCiphertextList ℓ ccs ++ suffix) = some (ccs, suffix) := by
  intro ccs
  induction ccs with
  | nil => intro suffix; simp [encodeChunkedCiphertextList, decodeChunkedCiphertextList_zero]
  | cons cc rest ih =>
    intro suffix
    rw [List.length_cons, decodeChunkedCiphertextList_succ]
    have hshape : encodeChunkedCiphertextList ℓ (cc :: rest) ++ suffix =
        encodeCiphertextList ℓ cc.chunks ++
          (encodeChunkedCiphertextList ℓ rest ++ suffix) := by
      simp [encodeChunkedCiphertextList, encodeChunkedCiphertext, List.append_assoc]
    have hdec : decodeCiphertextList ℓ 8
        (encodeCiphertextList ℓ cc.chunks ++
          (encodeChunkedCiphertextList ℓ rest ++ suffix)) =
        some (cc.chunks, encodeChunkedCiphertextList ℓ rest ++ suffix) := by
      rw [show (8 : ℕ) = cc.chunks.length from cc.chunks_len.symm]
      exact decodeCiphertextList_encode ℓ hℓ hpos cc.chunks _
    rw [hshape]
    simp only [hdec]
    rw [dif_pos cc.chunks_len]
    simp only [ih suffix]

theorem decodeChunkedCiphertextList_spec (ℓ : ℕ) :
    ∀ (k : ℕ) (bs : List ℕ) (ccs : List (ChunkedCiphertext ℓ)) (rest : List ℕ),
      decodeChunkedCiphertextList ℓ k bs = some (ccs, rest) →
      encodeChunkedCiphertextList ℓ ccs ++ rest = bs ∧ ccs.length = k := by
  intro k
  induction k with
  | zero =>
    intro bs ccs rest h
    rw [decodeChunkedCiphertextList_zero] at h
    have hpair : (([] : List (ChunkedCiphertext ℓ)), bs) = (ccs, rest) :=
      Option.some.inj h
    obtain ⟨h1, h2⟩ := Prod.mk.injEq .. ▸ hpair
    subst h1
    subst h2
    exact ⟨by simp [encodeChunkedCiphertextList], rfl⟩
  | succ k ih =>
    intro bs ccs rest h
    rw [decodeChunkedCiphertextList_succ] at h
    cases hd : decodeCiphertextList ℓ 8 bs with
    | none => simp only [hd] at h; exact Option.noConfusion h
    | some pair =>
      obtain ⟨cs, r1⟩ := pair
      simp only [hd] at h
      by_cases hlen : cs.length = 8
      · rw [dif_pos hlen] at h
        cases hrec : decodeChunkedCiphertextList ℓ k r1 with
        | none => simp only [hrec] at h; exact Option.noConfusion h
        | some pair2 =>
          obtain ⟨ccs2, r2⟩ := pair2
          simp only [hrec] at h
          have hpair : ((⟨cs, hlen⟩ : ChunkedCiphertext ℓ) :: ccs2, r2) =
              (ccs, rest) := Option.some.inj h
          obtain ⟨h1, h2⟩ := Prod.mk.injEq .. ▸ hpair
          subst h1
          subst h2
          obtain ⟨henc1, _⟩ := decodeCiphertextList_spec ℓ 8 bs cs r1 hd
          obtain ⟨henc2, hlen2⟩ := ih r1 ccs2 r2 hrec
          refine ⟨?_, by simp [hlen2]⟩
          rw [← henc1, ← henc2]
          simp [encodeChunkedCiphertextList, encodeChunkedCiphertext,
            List.append_assoc]
      · rw [dif_neg hlen] at h
        exact Option.noConfusion h

theorem decodeTransferProof_encode (ℓ : ℕ) (hℓ : ℓ ≤ 256 ^ 32) (hpos : 0 < ℓ)
    (pf : TransferProofWire ℓ)
    (hk : pf.auditorCiphertexts.length = pf.auditorKeys.length)
    (hkb : pf.auditorKeys.length < 256)
    (hs : pf.sigma.length = SIGMA_PROOF_TRANSFER_SIZE)
    (hn : pf.rangeProofs.length = 16 + pf.auditorKeys.length)
    (hr : ∀ rp ∈ pf.rangeProofs, rp.length < 256 ^ 4) :
    decodeTransferProof ℓ (encodeTransferProof ℓ pf) = some pf := by
  unfold decodeTransferProof encodeTransferProof
  have hshape : encodeLE 2 proofVersion ++ encodeLE 1 pf.auditorKeys.length
      ++ encodePointList ℓ pf.auditorKeys
      ++ encodeChunkedCiphertextList ℓ pf.auditorCiphertexts
      ++ pf.sigma ++ encodeRangeProofs pf.rangeProofs =
      encodeLE 2 proofVersion ++ (encodeLE 1 pf.auditorKeys.length
        ++ (encodePointList ℓ pf.auditorKeys
          ++ (encodeChunkedCiphertextList ℓ pf.auditorCiphertexts
            ++ (pf.sigma ++ encodeRangeProofs pf.rangeProofs)))) := by
    simp [List.append_assoc]
  rw [hshape, takeExact_append_of_len 2 _ _ (encodeLE_length 2 proofVersion)]
  simp only
  rw [if_pos trivial, takeExact_append_of_len 1 _ _ (encodeLE_length 1 _)]
  simp only
  rw [if_pos (encodeLE_lt 1 _)]
  rw [decodeLEval_encodeLE 1 pf.auditorKeys.length (by simpa using hkb)]
  rw [decodePointList_encode ℓ hℓ hpos pf.auditorKeys _]
  simp only
  have hccs : decodeChunkedCiphertextList ℓ pf.auditorKeys.length
      (encodeChunkedCiphertextList ℓ pf.auditorCiphertexts ++
        (pf.sigma ++ encodeRangeProofs pf.rangeProofs)) =
      some (pf.auditorCiphertexts, pf.sigma ++ encodeRangeProofs pf.rangeProofs) := by
    rw [← hk]
    exact decodeChunkedCiphertextList_encode ℓ hℓ hpos pf.auditorCiphertexts _
  simp only [hccs]
  rw [takeExact_append_of_len SIGMA_PROOF_TRANSFER_SIZE _ _ hs]
  simp only
  have hnil : encodeRangeProofs pf.rangeProofs =
      encodeRangeProofs pf.rangeProofs ++ [] := by simp
  have hranges : decodeRangeProofs (16 + pf.auditorKeys.length)
      (encodeRangeProofs pf.rangeProofs ++ []) = some (pf.rangeProofs, []) := by
    rw [← hn]
    exact decodeRangeProofs_encode pf.rangeProofs [] hr
  rw [hnil]
  simp only [hranges]
  rw [if_pos trivial]

theorem encodeTransferProof_decode (ℓ : ℕ) (bs : List ℕ) (pf : TransferProofWire ℓ)
    (h : decodeTransferProof ℓ bs = some pf) : encodeTransferProof ℓ pf = bs := by
  unfold decodeTransferProof at h
  cases ht : takeExact 2 bs with
  | none => simp only [ht] at h; exact Option.noConfusion h
  | some pair =>
    obtain ⟨vB, r1⟩ := pair
    simp only [ht] at h
    by_cases hv : vB = encodeLE 2 proofVersion
    · rw [if_pos hv] at h
      cases ht1 : takeExact 1 r1 with
      | none => simp only [ht1] at h; exact Option.noConfusion h
      | some pair1 =>
        obtain ⟨kB, r2⟩ := pair1
        simp only [ht1] at h
        by_cases hkv : ∀ b ∈ kB, b < 256
        · rw [if_pos hkv] at h
          cases hp : decodePointList ℓ (decodeLEval kB) r2 with
          | none => simp only [hp] at h; exact Option.noConfusion h
          | some pairp =>
            obtain ⟨keys, r3⟩ := pairp
            simp only [hp] at h
            cases hcc : decodeChunkedCiphertextList ℓ (decodeLEval kB) r3 with
            | none => simp only [hcc] at h; exact Option.noConfusion h
            | some pairc =>
              obtain ⟨ccs, r4⟩ := pairc
              simp only [hcc] at h
              cases hsg : takeExact SIGMA_PROOF_TRANSFER_SIZE r4 with
              | none => simp only [hsg] at h; exact Option.noConfusion h
              | some pairs =>
                obtain ⟨sg, r5⟩ := pairs
                simp only [hsg] at h
                cases hrp : decodeRangeProofs (16 + decodeLEval kB) r5 with
                | none => simp only [hrp] at h; exact Option.noConfusion h
                | some pairr =>
                  obtain ⟨rps, r6⟩ := pairr
                  simp only [hrp] at h
                  by_cases h6 : r6 = []
                  · rw [if_pos h6] at h
                    obtain rfl : (⟨keys, ccs, sg, rps⟩ : TransferProofWire ℓ) = pf :=
                      Option.some.inj h
                    obtain ⟨hbs, _⟩ := takeExact_some_spec 2 bs vB r1 ht
                    obtain ⟨hr1, hkb1⟩ := takeExact_some_spec 1 r1 kB r2 ht1
                    obtain ⟨hr2, hkeyslen⟩ :=
                      decodePointList_spec ℓ (decodeLEval kB) r2 keys r3 hp
                    obtain ⟨hr3, _⟩ :=
                      decodeChunkedCiphertextList_spec ℓ (decodeLEval kB) r3 ccs r4 hcc
                    obtain ⟨hr4, _⟩ :=
                      takeExact_some_spec SIGMA_PROOF_TRANSFER_SIZE r4 sg r5 hsg
                    obtain ⟨hr5, _⟩ :=
                      decodeRangeProofs_spec (16 + decodeLEval kB) r5 rps r6 hrp
                    have hkB : encodeLE 1 keys.length = kB := by
                      rw [hkeyslen, ← hkb1]
                      exact encodeLE_decodeLEval kB hkv
                    show encodeLE 2 proofVersion ++ encodeLE 1 keys.length
                        ++ encodePointList ℓ keys
                        ++ encodeChunkedCiphertextList ℓ ccs
                        ++ sg ++ encodeRangeProofs rps = bs
                    rw [hkB, ← hv, hbs, hr1, ← hr2, ← hr3, hr4, ← hr5, h6]
                    simp [List.append_assoc]
                  · rw [if_neg h6] at h
                    exact Option.noConfusion h
        · rw [if_neg hkv] at h
          exact Option.noConfusion h
    · rw [if_neg hv] at h
      exact Option.noConfusion h

/-! ## Claim C9 -/

/-- C9: encoding canonicality.  For every ciphertext value (single and
chunked) and every proof value (withdrawal, normalization, rotation and
transfer layouts), decode after encode is the identity, and whenever
decode succeeds on a byte string, re-encoding the result reproduces that
byte string exactly, so decoding is injective and no two distinct byte
strings decode to the same logical value. -/
theorem c9_encoding_canonicality (ℓ : ℕ) (hℓ : ℓ ≤ 256 ^ 32) (hpos : 0 < ℓ) :
    (∀ c : Ciphertext ℓ, decodeCiphertext ℓ (encodeCiphertext ℓ c) = some c) ∧
    (∀ (bs : List ℕ) (c : Ciphertext ℓ),
      decodeCiphertext ℓ bs = some c → encodeCiphertext ℓ c = bs) ∧
    (∀ pf : WithdrawalProofWire,
      pf.sigma.length = SIGMA_PROOF_WITHDRAW_SIZE → pf.rangeProofs.length = 8 →
      (∀ rp ∈ pf.rangeProofs, rp.length < 256 ^ 4) →
      decodeWithdrawalProof (encodeWithdrawalProof pf) = some pf) ∧
    (∀ (bs : List ℕ) (pf : WithdrawalProofWire),
      decodeWithdrawalProof bs = some pf → encodeWithdrawalProof pf = bs) ∧
    (∀ cc : ChunkedCiphertext ℓ,
      decodeChunkedCiphertext ℓ (encodeChunkedCiphertext ℓ cc) = some cc) ∧
    (∀ (bs : List ℕ) (cc : ChunkedCiphertext ℓ),
      decodeChunkedCiphertext ℓ bs = some cc → encodeChunkedCiphertext ℓ cc = bs) ∧
    (∀ pf : NormalizationProofWire,
      pf.sigma.length = SIGMA_PROOF_NORMALIZATION_SIZE → pf.rangeProofs.length = 8 →
      (∀ rp ∈ pf.rangeProofs, rp.length < 256 ^ 4) →
      decodeNormalizationProof (encodeNormalizationProof pf) = some pf) ∧
    (∀ (bs : List ℕ) (pf : NormalizationProofWire),
      decodeNormalizationProof bs = some pf → encodeNormalizationProof pf = bs) ∧
    (∀ pf : RotationProofWire,
      pf.sigma.length = SIGMA_PROOF_KEY_ROTATION_SIZE → pf.rangeProofs.length = 8 →
      (∀ rp ∈ pf.rangeProofs, rp.length < 256 ^ 4) →
      decodeRotationProof (encodeRotationProof pf) = some pf) ∧
    (∀ (bs : List ℕ) (pf : RotationProofWire),
      decodeRotationProof bs = some pf → encodeRotationProof pf = bs) ∧
    (∀ pf : TransferProofWire ℓ,
      pf.auditorCiphertexts.length = pf.auditorKeys.length →
      pf.auditorKeys.length < 256 →
      pf.sigma.length = SIGMA_PROOF_TRANSFER_SIZE →
      pf.rangeProofs.length = 16 + pf.auditorKeys.length →
      (∀ rp ∈ pf.rangeProofs, rp.length < 256 ^ 4) →
      decodeTransferProof ℓ (encodeTransferProof ℓ pf) = some pf) ∧
    (∀ (bs : List ℕ) (pf : TransferProofWire ℓ),
      decodeTransferProof ℓ bs = some pf → encodeTransferProof ℓ pf = bs) :=
  ⟨fun c => decodeCiphertext_encodeCiphertext ℓ hℓ hpos c,
   fun bs c h => encodeCiphertext_decodeCiphertext ℓ bs c h,
   fun pf hs h8 hr => decodeWithdrawalProof_encode pf hs h8 hr,
   fun bs pf h => encodeWithdrawalProof_decode bs pf h,
   fun cc => decodeChunkedCiphertext_encode ℓ hℓ hpos cc,
   fun bs cc h => encodeChunkedCiphertext_decode ℓ bs cc h,
   fun pf hs h8 hr => decodeNormalizationProof_encode pf hs h8 hr,
   fun bs pf h => encodeNormalizationProof_decode bs pf h,
   fun pf hs h8 hr => decodeRotationProof_encode pf hs h8 hr,
   fun bs pf h => encodeRotationProof_decode bs pf h,
   fun pf hk hkb hs hn hr => decodeTransferProof_encode ℓ hℓ hpos pf hk hkb hs hn hr,
   fun bs pf h => encodeTransferProof_decode ℓ bs pf h⟩

theorem c9_encoding_canonicality_witness :
    (5 : ℕ) ≤ 256 ^ 32 ∧ (0 : ℕ) < 5 ∧
      ((∀ c : Ciphertext 5, decodeCiphertext 5 (encodeCiphertext 5 c) = some c) ∧
      (∀ (bs : List ℕ) (c : Ciphertext 5),
        decodeCiphertext 5 bs = some c → encodeCiphertext 5 c = bs) ∧
      (∀ pf : WithdrawalProofWire,
        pf.sigma.length = SIGMA_PROOF_WITHDRAW_SIZE → pf.rangeProofs.length = 8 →
        (∀ rp ∈ pf.rangeProofs, rp.length < 256 ^ 4) →
        decodeWithdrawalProof (encodeWithdrawalProof pf) = some pf) ∧
      (∀ (bs : List ℕ) (pf : WithdrawalProofWire),
        decodeWithdrawalProof bs = some pf → encodeWithdrawalProof pf = bs) ∧
      (∀ cc : ChunkedCiphertext 5,
        decodeChunkedCiphertext 5 (encodeChunkedCiphertext 5 cc) = some cc) ∧
      (∀ (bs : List ℕ) (cc : ChunkedCiphertext 5),
        decodeChunkedCiphertext 5 bs = some cc → encodeChunkedCiphertext 5 cc = bs) ∧
      (∀ pf : NormalizationProofWire,
        pf.sigma.length = SIGMA_PROOF_NORMALIZATION_SIZE → pf.rangeProofs.length = 8 →
        (∀ rp ∈ pf.rangeProofs, rp.length < 256 ^ 4) →
        decodeNormalizationProof (encodeNormalizationProof pf) = some pf) ∧
      (∀ (bs : List ℕ) (pf : NormalizationProofWire),
        decodeNormalizationProof bs = some pf → encodeNormalizationProof pf = bs) ∧
      (∀ pf : RotationProofWire,
        pf.sigma.length = SIGMA_PROOF_KEY_ROTATION_SIZE → pf.rangeProofs.length = 8 →
        (∀ rp ∈ pf.rangeProofs, rp.length < 256 ^ 4) →
        decodeRotationProof (encodeRotationProof pf) = some pf) ∧
      (∀ (bs : List ℕ) (pf : RotationProofWire),
        decodeRotationProof bs = some pf → encodeRotationProof pf = bs) ∧
      (∀ pf : TransferProofWire 5,
        pf.auditorCiphertexts.length = pf.auditorKeys.length →
        pf.auditorKeys.length < 256 →
        pf.sigma.length = SIGMA_PROOF_TRANSFER_SIZE →
        pf.rangeProofs.length = 16 + pf.auditorKeys.length →
        (∀ rp ∈ pf.rangeProofs, rp.length < 256 ^ 4) →
        decodeTransferProof 5 (encodeTransferProof 5 pf) = some pf) ∧
      (∀ (bs : List ℕ) (pf : TransferProofWire 5),
        decodeTransferProof 5 bs = some pf → encodeTransferProof 5 pf = bs)) :=
  ⟨by decide, by decide, c9_encoding_canonicality 5 (by decide) (by decide)⟩

/-- C6: the claim as frozen is false: the fixed domain string named by the
spec is 53 characters of ASCII, hence 53 bytes long, not 32. -/
theorem c6_counterexample :
    decryptionKeyDerivationMessage.length = 53 ∧
      decryptionKeyDerivationMessage.utf8ByteSize = 53 ∧
      decryptionKeyDerivationMessage.length ≠ 32 ∧
      decryptionKeyDerivationMessage.utf8ByteSize ≠ 32 := by decide

/-- C6 (amended): the message signed to derive a decryption key is the
fixed domain string CONFIDENTIAL_ASSET__TWISTED_ED25519_PRIVATE_KEY_CLAIM,
which is 53 bytes long, and the key is obtained by hashing the resulting
signature to a scalar. -/
theorem c6_derivation_message :
    decryptionKeyDerivationMessage =
      "CONFIDENTIAL_ASSET__TWISTED_ED25519_PRIVATE_KEY_CLAIM" ∧
    decryptionKeyDerivationMessage.utf8ByteSize = 53 ∧
    (∀ (ℓ : ℕ) (h : String → List ℕ → ZMod ℓ) (sig : List ℕ),
      fromSignature ℓ h sig = h "CA-DK-v1" sig) :=
  ⟨rfl, by decide, fun _ _ _ => rfl⟩

/-! ## Claim C10 -/

/-- C10: each Sigma proof block has a fixed serialized size that is a whole
multiple of the 32-byte proof chunk: withdrawal and normalization are both
21 chunks (672 bytes), transfer is 33 chunks (1056 bytes), and key
rotation is 23 chunks (736 bytes). -/
theorem c10_sigma_proof_sizes :
    PROOF_CHUNK_SIZE = 32 ∧
    SIGMA_PROOF_WITHDRAW_SIZE = 21 * PROOF_CHUNK_SIZE ∧
    SIGMA_PROOF_WITHDRAW_SIZE = 672 ∧
    SIGMA_PROOF_NORMALIZATION_SIZE = 21 * PROOF_CHUNK_SIZE ∧
    SIGMA_PROOF_NORMALIZATION_SIZE = 672 ∧
    SIGMA_PROOF_TRANSFER_SIZE = 33 * PROOF_CHUNK_SIZE ∧
    SIGMA_PROOF_TRANSFER_SIZE = 1056 ∧
    SIGMA_PROOF_KEY_ROTATION_SIZE = 23 * PROOF_CHUNK_SIZE ∧
    SIGMA_PROOF_KEY_ROTATION_SIZE = 736 := by decide

end ConfidentialAssets
